import Mathlib

/-!
# Verification of the arbitrage graph engine

Shallow embedding of `src/bin/arb/src/strategy/graph_path_finder.rs`:
graph construction from a DEX-discovery capability, negative-cycle
detection by Bellman-Ford relaxation, cycle extraction, and conversion of
cycles to trade paths.

Modelling conventions:
* `f64` weights and distances are modelled as `ℚ`; the distance map's
  `f64::INFINITY` entries are modelled as `none : Option ℚ` (all constants
  appearing in the program, `-1.0` and the test weights `-0.5`, are dyadic
  rationals on which `f64` arithmetic is exact at these magnitudes).
* Rust `HashSet<Node>` is a duplicate-free `List Node` grown by
  insert-if-absent; `HashMap` is an association list; its (unspecified)
  iteration order is the list order.
* `async` suspension is irrelevant to the values computed and is dropped;
  fallible discovery calls return `Except Unit`.
* The worklist loop of `build_graph` need not terminate for an adversarial
  searcher, so it takes explicit fuel and returns `none` when the fuel runs
  out with work remaining; `some` results correspond exactly to terminating
  Rust executions.
-/

namespace Arb

/-- Node in the arbitrage graph, `struct Node { token_type: String }`. -/
structure Node where
  token_type : String
deriving DecidableEq

/-- The uniform capability surface of a `Box<dyn Dex>` adapter that this
core reads: input token, output token, protocol name, object identifier
(spec §6, "DEX Adapter"). `ObjectID` is modelled as a string. -/
structure Dex where
  coin_in_type : String
  coin_out_type : String
  protocol : String
  object_id : String
deriving DecidableEq

/-- Edge in the arbitrage graph,
`struct Edge { from: Node, to: Node, dex: Box<dyn Dex>, weight: f64 }`
(`from`/`to` are Lean keywords, hence the underscores). -/
structure Edge where
  from_ : Node
  to_ : Node
  dex : Dex
  weight : ℚ
deriving DecidableEq

/-- `struct ArbitrageGraph { nodes: HashSet<Node>, edges: HashMap<Node, Vec<Edge>> }`. -/
structure ArbitrageGraph where
  nodes : List Node
  edges : List (Node × List Edge)
deriving DecidableEq

/-- `sui_sdk::SUI_COIN_TYPE` (external constant). -/
def SUI_COIN_TYPE : String := "0x2::sui::SUI"

/-- Modelled from the spec: `utils::coin::is_native_coin` is not under
`src/`; spec §6 describes it as the predicate deciding whether a
one-hop-from-start token "is itself a wrapped form of the start asset",
used only during graph widening.  The start asset here is SUI. -/
def is_native_coin (token_type : String) : Bool :=
  token_type == SUI_COIN_TYPE

/-- The `DexSearcher` capability: `find_dexes(token_type, None)`,
deterministic per token, may fail (`Except.error`). -/
def DexSearcher : Type := String → Except Unit (List Dex)

/-- `HashSet::insert` on the duplicate-free node list. -/
def insertNode (ns : List Node) (n : Node) : List Node :=
  if n ∈ ns then ns else ns ++ [n]

/-- `self.edges.entry(node).or_insert_with(Vec::new).push(edge)`. -/
def pushEdge (es : List (Node × List Edge)) (n : Node) (e : Edge) :
    List (Node × List Edge) :=
  match es with
  | [] => [(n, [e])]
  | (k, l) :: rest =>
      if k = n then (k, l ++ [e]) :: rest else (k, l) :: pushEdge rest n e

/-- The inner `for dex in dexes` loop of `build_graph` (lines 87-112):
insert the destination node, record the edge with the placeholder weight
`-1.0`, and push the out token onto the work stack when not yet visited.
The stack is a `List` whose head is the Rust `Vec`'s end (its pop side). -/
def addDexes (g : ArbitrageGraph) (node : Node) (visited : List String)
    (queue : List String) : List Dex → ArbitrageGraph × List String
  | [] => (g, queue)
  | dex :: rest =>
      let out_token := dex.coin_out_type
      let to_node : Node := ⟨out_token⟩
      let g' : ArbitrageGraph :=
        { nodes := insertNode g.nodes to_node
          edges := pushEdge g.edges node
            { from_ := node, to_ := to_node, dex := dex, weight := -1 } }
      let queue' := if out_token ∈ visited then queue else out_token :: queue
      addDexes g' node visited queue' rest

/-- The worklist loop of `build_graph` (lines 70-113).  Fuel counts loop
iterations; `none` models an execution that would still be running. -/
def build_loop (ds : DexSearcher) :
    Nat → List String → List String → ArbitrageGraph →
    Option (ArbitrageGraph × List String)
  | _, visited, [], g => some (g, visited)
  | 0, _, _ :: _, _ => none
  | fuel + 1, visited, token_type :: queue, g =>
      if token_type ∈ visited then build_loop ds fuel visited queue g
      else
        let visited' := token_type :: visited
        let node : Node := ⟨token_type⟩
        let g₁ : ArbitrageGraph := { g with nodes := insertNode g.nodes node }
        match ds token_type with
        | Except.error _ => build_loop ds fuel visited' queue g₁
        | Except.ok dexes =>
            let gq := addDexes g₁ node visited' queue dexes
            build_loop ds fuel visited' gq.2 gq.1

/-- `ArbitrageGraph::build_graph` (lines 66-116): run the worklist loop
from a fresh `visited` set seeded with the start token.  Note every
discovery failure is swallowed inside the loop (`Err(_) => continue`), so
the Rust function returns `Ok` on every path; only fuel exhaustion
produces `none` here. -/
def build_graph (ds : DexSearcher) (fuel : Nat) (g : ArbitrageGraph)
    (start_token : String) : Option (ArbitrageGraph × List String) :=
  build_loop ds fuel [] [start_token] g

/-- The widening loop of `ArbitrageGraph::new` (lines 51-56): for each DEX
reachable in one hop from SUI whose out token is not native, re-run
`build_graph` rooted at that out token. -/
def wideningFold (ds : DexSearcher) (fuel : Nat) :
    List Dex → ArbitrageGraph → Option ArbitrageGraph
  | [], g => some g
  | dex :: rest, g =>
      let token_type := dex.coin_out_type
      if is_native_coin token_type then wideningFold ds fuel rest g
      else
        match build_graph ds fuel g token_type with
        | none => none
        | some gv => wideningFold ds fuel rest gv.1

/-- `ArbitrageGraph::new` (lines 36-63).  The SUI node is inserted first,
the graph is built from `SUI_COIN_TYPE` (not from any caller-supplied
token), then `find_dexes(SUI)` is queried once more — the `?` on that call
(line 50) is the only hard-error exit — and construction is re-rooted at
every non-native one-hop token. -/
def ArbitrageGraph.new (ds : DexSearcher) (fuel : Nat) :
    Option (Except Unit ArbitrageGraph) :=
  match build_graph ds fuel ⟨[⟨SUI_COIN_TYPE⟩], []⟩ SUI_COIN_TYPE with
  | none => none
  | some gv =>
      match ds SUI_COIN_TYPE with
      | Except.error e => some (Except.error e)
      | Except.ok sui_dexes =>
          match wideningFold ds fuel sui_dexes gv.1 with
          | none => none
          | some g => some (Except.ok g)

/-! ## Bellman-Ford negative-cycle detection -/

/-- Distance map: `HashMap<Node, f64>` with `f64::INFINITY` as `none`. -/
def Dist : Type := Node → Option ℚ

/-- Predecessor map: `HashMap<Node, Option<(Node, Edge)>>`. -/
def Pred : Type := Node → Option (Node × Edge)

/-- Point update of a map modelled as a function. -/
def updMap {α : Type} (f : Node → α) (k : Node) (v : α) : Node → α :=
  fun x => if x = k then v else f x

/-- Rational addition in kernel-reducible form (`Rat.add` is
`@[irreducible]`); `qadd_eq_add` below shows it is exactly `+` on `ℚ`,
which is how the source's `node_dist + edge.weight` is modelled. -/
def qadd (a b : ℚ) : ℚ :=
  mkRat (a.num * b.den + b.num * a.den) (a.den * b.den)

/-- `new_dist < to_dist` where `to_dist` may be `f64::INFINITY`. -/
def ltInf (x : ℚ) : Option ℚ → Bool
  | none => true
  | some y => decide (x < y)

/-- The inner edge loop of one relaxation pass (lines 148-157).
`node_dist` (`nd`) is read once per adjacency entry, before the entry's
edges are scanned, exactly as in the source. -/
def relaxEntry (node : Node) (nd : ℚ) :
    List Edge → Dist → Pred → Bool → Dist × Pred × Bool
  | [], d, p, u => (d, p, u)
  | e :: es, d, p, u =>
      let new_dist := qadd nd e.weight
      if ltInf new_dist (d e.to_) then
        relaxEntry node nd es (updMap d e.to_ (some new_dist))
          (updMap p e.to_ (some (node, e))) true
      else relaxEntry node nd es d p u

/-- One full relaxation pass over the adjacency entries (lines 142-158),
skipping entries whose node distance is infinite. -/
def relaxPass :
    List (Node × List Edge) → Dist → Pred → Bool → Dist × Pred × Bool
  | [], d, p, u => (d, p, u)
  | (node, es) :: rest, d, p, u =>
      match d node with
      | none => relaxPass rest d p u
      | some nd =>
          let r := relaxEntry node nd es d p u
          relaxPass rest r.1 r.2.1 r.2.2

/-- The `|V| - 1` relaxation rounds with early exit when a pass makes no
update (lines 139-163). -/
def relaxLoop (entries : List (Node × List Edge)) :
    Nat → Dist × Pred → Dist × Pred
  | 0, dp => dp
  | k + 1, dp =>
      let r := relaxPass entries dp.1 dp.2 false
      if r.2.2 then relaxLoop entries k (r.1, r.2.1) else (r.1, r.2.1)

/-- The backward predecessor walk of `extract_cycle` (lines 198-207),
fueled; fuel `|nodes| + 1` exceeds the number of distinct nodes a
terminating Rust walk can visit, so on graphs whose predecessor entries
stay inside `nodes` the fuel never runs out. -/
def walkPreds (p : Pred) :
    Nat → Node → List Node → List Edge → List Edge
  | 0, _, _, acc => acc
  | fuel + 1, current, visited, acc =>
      if current ∈ visited then acc
      else
        match p current with
        | some pe => walkPreds p fuel pe.1 (current :: visited) (acc ++ [pe.2])
        | none => acc

/-- `ArbitrageGraph::extract_cycle` (lines 193-216): walk the predecessor
map backwards, then accept the collected edges only if there are more than
one of them and the *collected* list's first edge's `from` token equals
its last edge's `to` token, in which case the list is reversed into
forward order. -/
def extract_cycle (g : ArbitrageGraph) (node : Node) (p : Pred) : List Edge :=
  let cycle := walkPreds p (g.nodes.length + 1) node [] []
  match cycle, cycle.getLast? with
  | e₁ :: _ :: _, some elast =>
      if e₁.from_.token_type = elast.to_.token_type then cycle.reverse else []
  | _, _ => []

/-- Inner edge loop of the negative-cycle check (lines 174-185): collect
`extract_cycle` results for still-relaxable edges, dropping empty ones. -/
def checkEntry (g : ArbitrageGraph) (nd : ℚ) (d : Dist) (p : Pred) :
    List Edge → List (List Edge)
  | [] => []
  | e :: es =>
      if ltInf (qadd nd e.weight) (d e.to_) then
        let c := extract_cycle g e.to_ p
        if c.isEmpty then checkEntry g nd d p es
        else c :: checkEntry g nd d p es
      else checkEntry g nd d p es

/-- The negative-cycle check pass over all adjacency entries (lines 166-186). -/
def checkPass (g : ArbitrageGraph) (d : Dist) (p : Pred) :
    List (Node × List Edge) → List (List Edge)
  | [] => []
  | (node, es) :: rest =>
      match d node with
      | none => checkPass g d p rest
      | some nd => checkEntry g nd d p es ++ checkPass g d p rest

/-- Initial distance map (lines 132-135): `0` for the start node, infinity
for every other graph node. -/
def dist0 (g : ArbitrageGraph) (start_node : Node) : Dist :=
  fun v => if v ∈ g.nodes then (if v = start_node then some 0 else none) else none

/-- `ArbitrageGraph::find_arbitrage_opportunities` (lines 120-190). -/
def find_arbitrage_opportunities (g : ArbitrageGraph) (start_token : String) :
    List (List Edge) :=
  let start_node : Node := ⟨start_token⟩
  if start_node ∈ g.nodes then
    let dp := relaxLoop g.edges (g.nodes.length - 1)
      (dist0 g start_node, fun _ => none)
    checkPass g dp.1 dp.2 g.edges
  else []

/-! ## Path conversion and filtering -/

/-- Modelled from the spec: `crate::defi::Path` is not under `src/`;
spec §2 and §4.3 describe it as an ordered sequence of DEX adapter
handles. -/
def Path : Type := List Dex

/-- Modelled from the spec: `Path::new(dexes)` wraps the hop sequence. -/
def Path.new (dexes : List Dex) : Path := dexes

/-- Modelled from the spec: `Path::contains_pool` — "a Path 'contains' a
given pool identifier iff any hop's object identifier matches it"
(spec §3); in this engine it is only ever called with `Some(pool_id)`. -/
def Path.contains_pool (path : Path) (pool_id : Option String) : Bool :=
  match pool_id with
  | some pid => path.any (fun dex => dex.object_id == pid)
  | none => true

/-- `ArbitrageGraph::cycle_to_path` (lines 219-222); the Rust method takes
`&self` but never reads it. -/
def cycle_to_path (cycle : List Edge) : Path :=
  Path.new (cycle.map (fun e => e.dex))

/-- `BellmanFordPathFinder::find_arbitrage_paths` (lines 237-260): build
the graph, detect cycles from `start_token`, convert to paths, and filter
by `pool_id` when supplied. -/
def find_arbitrage_paths (ds : DexSearcher) (fuel : Nat)
    (start_token : String) (pool_id : Option String) :
    Option (Except Unit (List Path)) :=
  match ArbitrageGraph.new ds fuel with
  | none => none
  | some (Except.error e) => some (Except.error e)
  | some (Except.ok graph) =>
      let cycles := find_arbitrage_opportunities graph start_token
      let paths := cycles.foldl
        (fun acc cycle =>
          let path := cycle_to_path cycle
          match pool_id with
          | some pid =>
              if path.contains_pool (some pid) then acc ++ [path] else acc
          | none => acc ++ [path]) []
      some (Except.ok paths)

/-! ## Concrete fixtures

Small searchers and graphs used by the counterexamples, failing-input
evaluations and witnesses below.  Weights are written with `mkRat` (which
the kernel can evaluate); `mkRat (-1) 2 = -0.5` and `-1 : ℚ` is the
placeholder weight. -/

def nA : Node := ⟨"A"⟩
def nB : Node := ⟨"B"⟩
def nC : Node := ⟨"C"⟩
def dexd : Dex := ⟨"i", "o", "p", "id"⟩
def eAB : Edge := ⟨nA, nB, dexd, mkRat (-1) 2⟩
def eBC : Edge := ⟨nB, nC, dexd, mkRat (-1) 2⟩
def eCA : Edge := ⟨nC, nA, dexd, mkRat (-1) 2⟩

/-- The spec §8 synthetic graph: A→B, B→C, C→A, each of weight −0.5. -/
def g4 : ArbitrageGraph := ⟨[nA, nB, nC], [(nA, [eAB]), (nB, [eBC]), (nC, [eCA])]⟩

def nS : Node := ⟨"S"⟩
def nX : Node := ⟨"X"⟩
def nY : Node := ⟨"Y"⟩
def eSX : Edge := ⟨nS, nX, dexd, -1⟩
def eXY : Edge := ⟨nX, nY, dexd, -1⟩
def eXX : Edge := ⟨nX, nX, dexd, -1⟩

/-- Graph with edges S→X, X→Y and a self-loop X→X, all of weight −1. -/
def gc2 : ArbitrageGraph := ⟨[nS, nX, nY], [(nS, [eSX]), (nX, [eXY, eXX])]⟩

/-- A DEX adapter swapping token X into token Y. -/
def dexXY : Dex := ⟨"X", "Y", "proto", "0xP"⟩

/-- Searcher with one route X→Y and nothing from any other token
(in particular nothing from SUI). -/
def dsX : DexSearcher := fun t => if t = "X" then Except.ok [dexXY] else Except.ok []

/-- Searcher whose discovery fails exactly on the SUI token. -/
def dsFailSui : DexSearcher :=
  fun t => if t = SUI_COIN_TYPE then Except.error () else Except.ok []

/-- A DEX adapter swapping SUI into a token Q. -/
def dexSQ : Dex := ⟨SUI_COIN_TYPE, "Q", "p", "idSQ"⟩

/-- Searcher with the single route SUI→Q. -/
def dsW : DexSearcher :=
  fun t => if t = SUI_COIN_TYPE then Except.ok [dexSQ] else Except.ok []

/-- The graph `ArbitrageGraph.new dsW _` constructs: nodes SUI and Q, one
edge SUI→Q carrying the placeholder weight. -/
def gW : ArbitrageGraph :=
  ⟨[⟨SUI_COIN_TYPE⟩, ⟨"Q"⟩],
   [(⟨SUI_COIN_TYPE⟩, [⟨⟨SUI_COIN_TYPE⟩, ⟨"Q"⟩, dexSQ, -1⟩])]⟩

/-- Adapters forming a two-token loop SUI→T→SUI. -/
def dexST : Dex := ⟨SUI_COIN_TYPE, "T", "p", "id1"⟩

def dexTS : Dex := ⟨"T", SUI_COIN_TYPE, "p", "id2"⟩

/-- Searcher whose topology is the loop SUI⇄T, on which detection finds
(arbitrage) cycles, exercising the `pool_id` filter on non-empty results. -/
def dsC : DexSearcher :=
  fun t =>
    if t = SUI_COIN_TYPE then Except.ok [dexST]
    else if t = "T" then Except.ok [dexTS] else Except.ok []

/-- The edge SUI→T recorded for `dexST`. -/
def eST : Edge := ⟨⟨SUI_COIN_TYPE⟩, ⟨"T"⟩, dexST, -1⟩

/-- The edge T→SUI recorded for `dexTS`. -/
def eTS : Edge := ⟨⟨"T"⟩, ⟨SUI_COIN_TYPE⟩, dexTS, -1⟩

/-- The graph `ArbitrageGraph.new dsC _` constructs.  The widening pass
re-runs construction rooted at T with a fresh visited set, so both edges
are recorded twice — the duplicate-parallel-edge behaviour spec §4.1
describes. -/
def gC : ArbitrageGraph :=
  ⟨[⟨SUI_COIN_TYPE⟩, ⟨"T"⟩],
   [(⟨SUI_COIN_TYPE⟩, [eST, eST]), (⟨"T"⟩, [eTS, eTS])]⟩

/-- The invariant maintained by graph construction: every recorded edge's
endpoints are graph nodes, every recorded edge carries the placeholder
weight `-1.0`, and the node list is duplicate-free (it models a `HashSet`
keyed by `token_type`). -/
def GraphInv (g : ArbitrageGraph) : Prop :=
  (∀ p ∈ g.edges, ∀ e ∈ p.2,
      e.from_ ∈ g.nodes ∧ e.to_ ∈ g.nodes ∧ e.weight = -1) ∧
  g.nodes.Nodup

/-- Tokens reachable from `root` through successful discovery responses:
`root` itself, and the out token of any adapter returned by a successful
query on a reachable token.  (A failing token has no successors, matching
the swallow-and-continue behaviour.) -/
inductive ReachSearch (ds : DexSearcher) (root : String) : String → Prop
  | refl : ReachSearch ds root root
  | step (t : String) (l : List Dex) (dex : Dex) :
      ReachSearch ds root t → ds t = Except.ok l → dex ∈ l →
      ReachSearch ds root dex.coin_out_type

/-- The edge that `build_graph` records for adapter `dex` discovered from
node `n` is present in `g`'s adjacency structure. -/
def edgeRec (g : ArbitrageGraph) (n : Node) (dex : Dex) : Prop :=
  ∃ es, (n, es) ∈ g.edges ∧
    ∃ e ∈ es, e.from_ = n ∧ e.to_ = (⟨dex.coin_out_type⟩ : Node) ∧ e.dex = dex

/-- Order on distances with `none` as `+∞`. -/
def leD : Option ℚ → Option ℚ → Prop
  | _, none => True
  | some a, some b => a ≤ b
  | none, some _ => False

/-- One relaxation step of the algorithm: the adjacency entry keyed `u`
holds an edge of weight `w` into `v`.  (Construction guarantees the entry
key equals the edge's `from_` field; relaxation only ever reads the key.) -/
def stepIn (g : ArbitrageGraph) (u v : Node) (w : ℚ) : Prop :=
  ∃ es, (u, es) ∈ g.edges ∧ ∃ e ∈ es, e.to_ = v ∧ e.weight = w

/-- A walk from `a` to `b`: the list records, per step, the vertex stepped
to and the weight of the edge used. -/
def IsWalkFrom (g : ArbitrageGraph) : Node → List (Node × ℚ) → Node → Prop
  | a, [], b => b = a
  | a, (v, w) :: rest, b => stepIn g a v w ∧ IsWalkFrom g v rest b

/-- Total weight of a walk. -/
def wsum (l : List (Node × ℚ)) : ℚ := (l.map Prod.snd).sum

/-- `b` is reachable from `a` by some walk. -/
def Reachable (g : ArbitrageGraph) (a b : Node) : Prop :=
  ∃ l, IsWalkFrom g a l b

/-- A directed cycle through `b`: a non-empty closed walk whose vertices,
apart from the return to `b`, are pairwise distinct. -/
def SimpleCycleAt (g : ArbitrageGraph) (b : Node) (l : List (Node × ℚ)) : Prop :=
  IsWalkFrom g b l b ∧ l ≠ [] ∧ (b :: (l.map Prod.fst).dropLast).Nodup

/-- No violating ("still relaxable") edge among the adjacency entries:
this is exactly the condition scanned by the negative-cycle check pass. -/
def NoViol (entries : List (Node × List Edge)) (d : Dist) : Prop :=
  ∀ pr ∈ entries, ∀ nd, d pr.1 = some nd →
    ∀ e ∈ pr.2, ltInf (qadd nd e.weight) (d e.to_) = false

/-- Every finite distance is realized by a walk from `s`. -/
def Sound (g : ArbitrageGraph) (s : Node) (d : Dist) : Prop :=
  ∀ v c, d v = some c → ∃ l, IsWalkFrom g s l v ∧ wsum l = c

/-- The distance map bounds every walk of at most `j` steps. -/
def UB (g : ArbitrageGraph) (s : Node) (d : Dist) (j : Nat) : Prop :=
  ∀ l v, IsWalkFrom g s l v → l.length ≤ j → leD (d v) (some (wsum l))

/-! ## Helper lemmas -/

theorem qadd_eq_add (a b : ℚ) : qadd a b = a + b := by
  rw [Rat.add_def']; rfl

theorem insertNode_mem_mono {ns : List Node} {a : Node} (n : Node)
    (h : a ∈ ns) : a ∈ insertNode ns n := by
  unfold insertNode
  split
  · exact h
  · exact List.mem_append_left _ h

theorem insertNode_self_mem (ns : List Node) (n : Node) :
    n ∈ insertNode ns n := by
  unfold insertNode
  split
  · assumption
  · exact List.mem_append_right _ (List.mem_singleton.mpr rfl)

theorem insertNode_nodup {ns : List Node} (n : Node) (h : ns.Nodup) :
    (insertNode ns n).Nodup := by
  unfold insertNode
  split
  · exact h
  · next hn =>
      simp only [List.nodup_append, List.nodup_cons, List.nodup_nil,
        List.disjoint_singleton]
      exact ⟨h, by simp, hn⟩

theorem pushEdge_mem_cases (es : List (Node × List Edge)) (n : Node)
    (enew : Edge) :
    ∀ (p : Node × List Edge) (e : Edge), p ∈ pushEdge es n enew → e ∈ p.2 →
    (∃ q ∈ es, e ∈ q.2) ∨ e = enew := by
  induction es with
  | nil =>
      intro p e hp he
      simp only [pushEdge, List.mem_singleton] at hp
      subst hp
      simp only [List.mem_singleton] at he
      exact Or.inr he
  | cons hd tl ih =>
      intro p e hp he
      obtain ⟨k, l⟩ := hd
      by_cases hk : k = n
      · simp only [pushEdge, if_pos hk] at hp
        rcases List.mem_cons.mp hp with h1 | h2
        · subst h1
          rcases List.mem_append.mp he with h3 | h4
          · exact Or.inl ⟨(k, l), List.mem_cons_self _ _, h3⟩
          · exact Or.inr (List.mem_singleton.mp h4)
        · exact Or.inl ⟨p, List.mem_cons_of_mem _ h2, he⟩
      · simp only [pushEdge, if_neg hk] at hp
        rcases List.mem_cons.mp hp with h1 | h2
        · subst h1
          exact Or.inl ⟨(k, l), List.mem_cons_self _ _, he⟩
        · rcases ih p e h2 he with ⟨q, hq, hqe⟩ | h3
          · exact Or.inl ⟨q, List.mem_cons_of_mem _ hq, hqe⟩
          · exact Or.inr h3

theorem addDexes_inv (dexes : List Dex) (g : ArbitrageGraph) (node : Node)
    (vis q : List String) (hnode : node ∈ g.nodes) (hinv : GraphInv g) :
    GraphInv (addDexes g node vis q dexes).1 ∧
    node ∈ (addDexes g node vis q dexes).1.nodes ∧
    (∀ a, a ∈ g.nodes → a ∈ (addDexes g node vis q dexes).1.nodes) := by
  induction dexes generalizing g q with
  | nil => exact ⟨hinv, hnode, fun a ha => ha⟩
  | cons dex rest ih =>
      simp only [addDexes]
      set to_node : Node := ⟨dex.coin_out_type⟩ with hto
      set enew : Edge :=
        { from_ := node, to_ := to_node, dex := dex, weight := -1 } with henew
      set g' : ArbitrageGraph :=
        { nodes := insertNode g.nodes to_node
          edges := pushEdge g.edges node enew } with hg'
      have hnode' : node ∈ g'.nodes := insertNode_mem_mono to_node hnode
      have hinv' : GraphInv g' := by
        constructor
        · intro p hp e he
          rcases pushEdge_mem_cases g.edges node enew p e hp he with ⟨qq, hq, hqe⟩ | hnew
          · obtain ⟨h1, h2, h3⟩ := hinv.1 qq hq e hqe
            exact ⟨insertNode_mem_mono to_node h1,
              insertNode_mem_mono to_node h2, h3⟩
          · subst hnew
            exact ⟨hnode', insertNode_self_mem g.nodes to_node, rfl⟩
        · exact insertNode_nodup to_node hinv.2
      obtain ⟨h1, h2, h3⟩ := ih g'
        (if dex.coin_out_type ∈ vis then q else dex.coin_out_type :: q)
        hnode' hinv'
      exact ⟨h1, h2, fun a ha => h3 a (insertNode_mem_mono to_node ha)⟩

theorem build_loop_inv (ds : DexSearcher) (fuel : Nat) :
    ∀ (vis q : List String) (g g' : ArbitrageGraph) (vis' : List String),
    build_loop ds fuel vis q g = some (g', vis') → GraphInv g → GraphInv g' := by
  induction fuel with
  | zero =>
      intro vis q g g' vis' h hinv
      cases q with
      | nil =>
          simp only [build_loop, Option.some.injEq, Prod.mk.injEq] at h
          rw [← h.1]; exact hinv
      | cons t rest =>
          simp only [build_loop] at h
          exact Option.noConfusion h
  | succ fuel ih =>
      intro vis q g g' vis' h hinv
      cases q with
      | nil =>
          simp only [build_loop, Option.some.injEq, Prod.mk.injEq] at h
          rw [← h.1]; exact hinv
      | cons token rest =>
          simp only [build_loop] at h
          split at h
          · exact ih vis rest g g' vis' h hinv
          · set node : Node := ⟨token⟩ with hnode
            set g₁ : ArbitrageGraph :=
              { g with nodes := insertNode g.nodes node } with hg₁
            have hinv₁ : GraphInv g₁ := by
              constructor
              · intro p hp e he
                obtain ⟨h1, h2, h3⟩ := hinv.1 p hp e he
                exact ⟨insertNode_mem_mono node h1,
                  insertNode_mem_mono node h2, h3⟩
              · exact insertNode_nodup node hinv.2
            cases hds : ds token with
            | error err =>
                rw [hds] at h
                exact ih _ rest g₁ g' vis' h hinv₁
            | ok dexes =>
                rw [hds] at h
                have hmem : node ∈ g₁.nodes := insertNode_self_mem g.nodes node
                obtain ⟨h1, _, _⟩ :=
                  addDexes_inv dexes g₁ node (token :: vis) rest hmem hinv₁
                exact ih _ _ _ g' vis' h h1

theorem wideningFold_inv (ds : DexSearcher) (fuel : Nat) :
    ∀ (dexes : List Dex) (g g' : ArbitrageGraph),
    wideningFold ds fuel dexes g = some g' → GraphInv g → GraphInv g' := by
  intro dexes
  induction dexes with
  | nil =>
      intro g g' h hinv
      simp only [wideningFold, Option.some.injEq] at h
      rw [← h]; exact hinv
  | cons dex rest ih =>
      intro g g' h hinv
      simp only [wideningFold] at h
      split at h
      · exact ih g g' h hinv
      · cases hb : build_graph ds fuel g dex.coin_out_type with
        | none => rw [hb] at h; exact absurd h (by simp)
        | some gv =>
            rw [hb] at h
            have := build_loop_inv ds fuel [] [dex.coin_out_type] g gv.1 gv.2
              (by rw [← hb]; rfl) hinv
            exact ih gv.1 g' h this

theorem new_inv (ds : DexSearcher) (fuel : Nat) (g : ArbitrageGraph)
    (h : ArbitrageGraph.new ds fuel = some (Except.ok g)) : GraphInv g := by
  unfold ArbitrageGraph.new at h
  have hinv₀ : GraphInv (⟨[⟨SUI_COIN_TYPE⟩], []⟩ : ArbitrageGraph) := by
    constructor
    · intro p hp
      exact absurd hp (List.not_mem_nil _)
    · simp
  cases hb : build_graph ds fuel ⟨[⟨SUI_COIN_TYPE⟩], []⟩ SUI_COIN_TYPE with
  | none => rw [hb] at h; exact absurd h (by simp)
  | some gv =>
      rw [hb] at h
      have hinv₁ : GraphInv gv.1 := by
        have hbl : build_loop ds fuel [] [SUI_COIN_TYPE] ⟨[⟨SUI_COIN_TYPE⟩], []⟩ =
            some (gv.1, gv.2) := by
          rw [← hb]; rfl
        exact build_loop_inv ds fuel [] [SUI_COIN_TYPE] _ gv.1 gv.2 hbl hinv₀
      cases hds : ds SUI_COIN_TYPE with
      | error err => rw [hds] at h; exact absurd h (by simp)
      | ok sui_dexes =>
          rw [hds] at h
          dsimp only at h
          cases hw : wideningFold ds fuel sui_dexes gv.1 with
          | none => rw [hw] at h; exact absurd h (by simp)
          | some gfin =>
              rw [hw] at h
              simp only [Option.some.injEq, Except.ok.injEq] at h
              rw [← h]
              exact wideningFold_inv ds fuel sui_dexes gv.1 gfin hw hinv₁

theorem pushEdge_preserves (es : List (Node × List Edge)) (n : Node)
    (enew : Edge) :
    ∀ (k : Node) (l : List Edge), (k, l) ∈ es →
    ∃ l', (k, l') ∈ pushEdge es n enew ∧ ∀ x ∈ l, x ∈ l' := by
  induction es with
  | nil => intro k l hk; exact absurd hk (List.not_mem_nil _)
  | cons hd tl ih =>
      intro k l hk
      obtain ⟨k₀, l₀⟩ := hd
      by_cases hn : k₀ = n
      · simp only [pushEdge, if_pos hn]
        rcases List.mem_cons.mp hk with h1 | h2
        · obtain ⟨hkk, hll⟩ := Prod.mk.injEq .. ▸ h1
          injection h1 with hkk hll
          subst hkk; subst hll
          exact ⟨l ++ [enew], List.mem_cons_self _ _,
            fun x hx => List.mem_append_left _ hx⟩
        · exact ⟨l, List.mem_cons_of_mem _ h2, fun x hx => hx⟩
      · simp only [pushEdge, if_neg hn]
        rcases List.mem_cons.mp hk with h1 | h2
        · injection h1 with hkk hll
          subst hkk; subst hll
          exact ⟨l, List.mem_cons_self _ _, fun x hx => hx⟩
        · obtain ⟨l', hl', hsub⟩ := ih k l h2
          exact ⟨l', List.mem_cons_of_mem _ hl', hsub⟩

theorem pushEdge_records (es : List (Node × List Edge)) (n : Node)
    (enew : Edge) :
    ∃ l, (n, l) ∈ pushEdge es n enew ∧ enew ∈ l := by
  induction es with
  | nil =>
      exact ⟨[enew], List.mem_singleton.mpr rfl, List.mem_singleton.mpr rfl⟩
  | cons hd tl ih =>
      obtain ⟨k, l₀⟩ := hd
      by_cases hn : k = n
      · subst hn
        simp only [pushEdge, if_pos rfl]
        exact ⟨l₀ ++ [enew], List.mem_cons_self _ _,
          List.mem_append_right _ (List.mem_singleton.mpr rfl)⟩
      · simp only [pushEdge, if_neg hn]
        obtain ⟨l, hl, he⟩ := ih
        exact ⟨l, List.mem_cons_of_mem _ hl, he⟩

theorem pushEdge_edgeRec_mono (g : ArbitrageGraph) (n' : Node) (enew : Edge)
    (nodes' : List Node) (n : Node) (dex : Dex) (h : edgeRec g n dex) :
    edgeRec ⟨nodes', pushEdge g.edges n' enew⟩ n dex := by
  obtain ⟨es, hes, e, he, h1, h2, h3⟩ := h
  obtain ⟨l', hl', hsub⟩ := pushEdge_preserves g.edges n' enew n es hes
  exact ⟨l', hl', e, hsub e he, h1, h2, h3⟩

theorem addDexes_nodes_mono (dexes : List Dex) :
    ∀ (g : ArbitrageGraph) (node : Node) (vis q : List String) (a : Node),
    a ∈ g.nodes → a ∈ (addDexes g node vis q dexes).1.nodes := by
  induction dexes with
  | nil => intro g node vis q a ha; exact ha
  | cons dex rest ih =>
      intro g node vis q a ha
      simp only [addDexes]
      exact ih _ node vis _ a (insertNode_mem_mono _ ha)

theorem addDexes_edges_mono (dexes : List Dex) :
    ∀ (g : ArbitrageGraph) (node : Node) (vis q : List String)
      (n : Node) (dex : Dex),
    edgeRec g n dex → edgeRec (addDexes g node vis q dexes).1 n dex := by
  induction dexes with
  | nil => intro g node vis q n dex h; exact h
  | cons dex0 rest ih =>
      intro g node vis q n dex h
      simp only [addDexes]
      exact ih _ node vis _ n dex (pushEdge_edgeRec_mono g node _ _ n dex h)

theorem addDexes_queue_sub (dexes : List Dex) :
    ∀ (g : ArbitrageGraph) (node : Node) (vis q : List String) (t : String),
    t ∈ q → t ∈ (addDexes g node vis q dexes).2 := by
  induction dexes with
  | nil => intro g node vis q t ht; exact ht
  | cons dex rest ih =>
      intro g node vis q t ht
      simp only [addDexes]
      refine ih _ node vis _ t ?_
      split
      · exact ht
      · exact List.mem_cons_of_mem _ ht

theorem addDexes_covers (dexes : List Dex) :
    ∀ (g : ArbitrageGraph) (node : Node) (vis q : List String),
    ∀ dex ∈ dexes,
      edgeRec (addDexes g node vis q dexes).1 node dex ∧
      (dex.coin_out_type ∈ vis ∨
       dex.coin_out_type ∈ (addDexes g node vis q dexes).2) := by
  induction dexes with
  | nil => intro g node vis q dex hdex; exact absurd hdex (List.not_mem_nil _)
  | cons dex0 rest ih =>
      intro g node vis q dex hdex
      simp only [addDexes]
      rcases List.mem_cons.mp hdex with h1 | h2
      · subst h1
        constructor
        · obtain ⟨l, hl, he⟩ := pushEdge_records g.edges node
            ⟨node, ⟨dex.coin_out_type⟩, dex, -1⟩
          exact addDexes_edges_mono rest _ node vis _ node dex
            ⟨l, hl, _, he, rfl, rfl, rfl⟩
        · by_cases hv : dex.coin_out_type ∈ vis
          · exact Or.inl hv
          · refine Or.inr (addDexes_queue_sub rest _ node vis _ _ ?_)
            simp only [if_neg hv]
            exact List.mem_cons_self _ _
      · exact ih _ node vis _ dex h2

theorem build_loop_spec (ds : DexSearcher) (fuel : Nat) :
    ∀ (vis q : List String) (g g' : ArbitrageGraph) (vis' : List String),
    build_loop ds fuel vis q g = some (g', vis') →
    (∀ n, n ∈ g.nodes → n ∈ g'.nodes) ∧
    (∀ n dex, edgeRec g n dex → edgeRec g' n dex) ∧
    (∀ t, t ∈ vis → t ∈ vis') ∧
    (∀ t, t ∈ q → t ∈ vis') ∧
    (∀ t, t ∈ vis' → t ∈ vis ∨
      ((⟨t⟩ : Node) ∈ g'.nodes ∧ ∀ l, ds t = Except.ok l →
        ∀ dex ∈ l, edgeRec g' (⟨t⟩ : Node) dex ∧ dex.coin_out_type ∈ vis')) := by
  induction fuel with
  | zero =>
      intro vis q g g' vis' h
      cases q with
      | nil =>
          simp only [build_loop, Option.some.injEq, Prod.mk.injEq] at h
          obtain ⟨hg, hv⟩ := h
          subst hg; subst hv
          exact ⟨fun n hn => hn, fun n dex hd => hd, fun t ht => ht,
            fun t ht => absurd ht (List.not_mem_nil _), fun t ht => Or.inl ht⟩
      | cons t rest =>
          simp only [build_loop] at h
          exact Option.noConfusion h
  | succ fuel ih =>
      intro vis q g g' vis' h
      cases q with
      | nil =>
          simp only [build_loop, Option.some.injEq, Prod.mk.injEq] at h
          obtain ⟨hg, hv⟩ := h
          subst hg; subst hv
          exact ⟨fun n hn => hn, fun n dex hd => hd, fun t ht => ht,
            fun t ht => absurd ht (List.not_mem_nil _), fun t ht => Or.inl ht⟩
      | cons token rest =>
          simp only [build_loop] at h
          by_cases hv : token ∈ vis
          · rw [if_pos hv] at h
            obtain ⟨m1, m2, m3, m4, m5⟩ := ih vis rest g g' vis' h
            refine ⟨m1, m2, m3, ?_, m5⟩
            intro t ht
            rcases List.mem_cons.mp ht with h1 | h2
            · subst h1; exact m3 t hv
            · exact m4 t h2
          · rw [if_neg hv] at h
            cases hds : ds token with
            | error err =>
                rw [hds] at h
                obtain ⟨m1, m2, m3, m4, m5⟩ := ih (token :: vis) rest _ g' vis' h
                refine ⟨?_, m2, ?_, ?_, ?_⟩
                · intro n hn
                  exact m1 n (insertNode_mem_mono _ hn)
                · intro t ht
                  exact m3 t (List.mem_cons_of_mem _ ht)
                · intro t ht
                  rcases List.mem_cons.mp ht with h1 | h2
                  · subst h1; exact m3 t (List.mem_cons_self _ _)
                  · exact m4 t h2
                · intro t ht
                  rcases m5 t ht with hl | hr
                  · rcases List.mem_cons.mp hl with h1 | h2
                    · subst h1
                      refine Or.inr ⟨m1 _ (insertNode_self_mem _ _), ?_⟩
                      intro l hl'
                      rw [hds] at hl'
                      exact Except.noConfusion hl'
                    · exact Or.inl h2
                  · exact Or.inr hr
            | ok dexes =>
                rw [hds] at h
                dsimp only at h
                obtain ⟨m1, m2, m3, m4, m5⟩ := ih (token :: vis) _ _ g' vis' h
                have hnode1 : (⟨token⟩ : Node) ∈
                    (insertNode g.nodes ⟨token⟩) := insertNode_self_mem _ _
                refine ⟨?_, ?_, ?_, ?_, ?_⟩
                · intro n hn
                  exact m1 n (addDexes_nodes_mono dexes _ _ _ _ n
                    (insertNode_mem_mono _ hn))
                · intro n dex hd
                  exact m2 n dex (addDexes_edges_mono dexes _ _ _ _ n dex hd)
                · intro t ht
                  exact m3 t (List.mem_cons_of_mem _ ht)
                · intro t ht
                  rcases List.mem_cons.mp ht with h1 | h2
                  · subst h1; exact m3 t (List.mem_cons_self _ _)
                  · exact m4 t (addDexes_queue_sub dexes _ _ _ _ t h2)
                · intro t ht
                  rcases m5 t ht with hl | hr
                  · rcases List.mem_cons.mp hl with h1 | h2
                    · subst h1
                      refine Or.inr ⟨m1 _ (addDexes_nodes_mono dexes _ _ _ _ _
                        hnode1), ?_⟩
                      intro l hl' dex hdex
                      rw [hds] at hl'
                      injection hl' with hl'
                      subst hl'
                      obtain ⟨hrec, hout⟩ := addDexes_covers dexes _ ⟨t⟩
                        (t :: vis) rest dex hdex
                      refine ⟨m2 _ dex hrec, ?_⟩
                      rcases hout with ho1 | ho2
                      · exact m3 _ ho1
                      · exact m4 _ ho2
                    · exact Or.inl h2
                  · exact Or.inr hr

theorem new_error (ds : DexSearcher) (fuel : Nat) (err : Unit)
    (h : ArbitrageGraph.new ds fuel = some (Except.error err)) :
    ds SUI_COIN_TYPE = Except.error err := by
  unfold ArbitrageGraph.new at h
  cases hb : build_graph ds fuel ⟨[⟨SUI_COIN_TYPE⟩], []⟩ SUI_COIN_TYPE with
  | none => rw [hb] at h; exact absurd h (by simp)
  | some gv =>
      rw [hb] at h
      cases hds : ds SUI_COIN_TYPE with
      | error e =>
          cases e
          cases err
          rfl
      | ok sui_dexes =>
          rw [hds] at h
          dsimp only at h
          cases hw : wideningFold ds fuel sui_dexes gv.1 with
          | none => rw [hw] at h; exact absurd h (by simp)
          | some gfin => rw [hw] at h; exact absurd h (by simp)

theorem new_ok_sui (ds : DexSearcher) (fuel : Nat) (g : ArbitrageGraph)
    (h : ArbitrageGraph.new ds fuel = some (Except.ok g)) :
    ∃ l, ds SUI_COIN_TYPE = Except.ok l := by
  unfold ArbitrageGraph.new at h
  cases hb : build_graph ds fuel ⟨[⟨SUI_COIN_TYPE⟩], []⟩ SUI_COIN_TYPE with
  | none => rw [hb] at h; exact absurd h (by simp)
  | some gv =>
      rw [hb] at h
      cases hds : ds SUI_COIN_TYPE with
      | error e => rw [hds] at h; exact absurd h (by simp)
      | ok sui_dexes => exact ⟨sui_dexes, rfl⟩

/-- Unfolding of the path-building fold of `find_arbitrage_paths`. -/
theorem fold_paths (pool_id : Option String) :
    ∀ (cycles : List (List Edge)) (acc : List Path),
    cycles.foldl
      (fun acc cycle =>
        let path := cycle_to_path cycle
        match pool_id with
        | some pid =>
            if path.contains_pool (some pid) then acc ++ [path] else acc
        | none => acc ++ [path]) acc =
    acc ++ (match pool_id with
      | some pid =>
          ((cycles.map cycle_to_path).filter
            (fun path => path.contains_pool (some pid)))
      | none => cycles.map cycle_to_path) := by
  intro cycles
  induction cycles with
  | nil =>
      intro acc
      cases pool_id <;> simp
  | cons c cs ih =>
      intro acc
      cases pool_id with
      | none =>
          simp only [List.foldl_cons, List.map_cons, ih, List.append_assoc,
            List.cons_append, List.nil_append]
      | some pid =>
          simp only [List.foldl_cons, List.map_cons, List.filter_cons]
          by_cases hc : (cycle_to_path c).contains_pool (some pid) = true
          · simp only [hc, if_true, if_pos hc, ih, List.append_assoc,
              List.cons_append, List.nil_append]
          · simp only [Bool.not_eq_true] at hc
            simp only [hc, if_false, Bool.false_eq_true, ih]

/-- The value `find_arbitrage_paths` returns once construction succeeds:
the detected cycles, mapped to paths, filtered by `pool_id` when one is
supplied. -/
theorem find_paths_ok_eq (ds : DexSearcher) (fuel : Nat)
    (start_token : String) (pool_id : Option String) (g : ArbitrageGraph)
    (hg : ArbitrageGraph.new ds fuel = some (Except.ok g)) :
    find_arbitrage_paths ds fuel start_token pool_id =
      some (Except.ok (match pool_id with
        | some pid =>
            (((find_arbitrage_opportunities g start_token).map
                cycle_to_path).filter
              (fun path => path.contains_pool (some pid)))
        | none =>
            (find_arbitrage_opportunities g start_token).map cycle_to_path)) := by
  unfold find_arbitrage_paths
  rw [hg]
  dsimp only
  rw [fold_paths pool_id (find_arbitrage_opportunities g start_token) []]
  rw [List.nil_append]

/-! ## Remaining claims -/

theorem wideningFold_mono (ds : DexSearcher) (fuel : Nat) :
    ∀ (dexes : List Dex) (g g' : ArbitrageGraph),
    wideningFold ds fuel dexes g = some g' →
    (∀ n, n ∈ g.nodes → n ∈ g'.nodes) ∧
    (∀ n dex, edgeRec g n dex → edgeRec g' n dex) := by
  intro dexes
  induction dexes with
  | nil =>
      intro g g' h
      simp only [wideningFold, Option.some.injEq] at h
      subst h
      exact ⟨fun n hn => hn, fun n dex hd => hd⟩
  | cons dex rest ih =>
      intro g g' h
      simp only [wideningFold] at h
      split at h
      · exact ih g g' h
      · cases hb : build_graph ds fuel g dex.coin_out_type with
        | none => rw [hb] at h; exact Option.noConfusion h
        | some gv =>
            rw [hb] at h
            obtain ⟨m1, m2, _, _, _⟩ := build_loop_spec ds fuel []
              [dex.coin_out_type] g gv.1 gv.2 (by rw [← hb]; rfl)
            obtain ⟨w1, w2⟩ := ih gv.1 g' h
            exact ⟨fun n hn => w1 n (m1 n hn),
              fun n d hd => w2 n d (m2 n d hd)⟩

/-- Claim C1, amended: on every terminating run, the graph that
`find_arbitrage_paths` constructs (via `ArbitrageGraph.new`, which takes
no start token) contains a node for every token reachable through
successful discovery responses from the fixed root `SUI_COIN_TYPE`, and
for each such token whose query succeeds it records an edge for every
returned adapter.  The caller-supplied `start_token` plays no role in
construction. -/
theorem c1_amended (ds : DexSearcher) (fuel : Nat) (g : ArbitrageGraph)
    (h : ArbitrageGraph.new ds fuel = some (Except.ok g)) :
    ∀ t, ReachSearch ds SUI_COIN_TYPE t →
      (⟨t⟩ : Node) ∈ g.nodes ∧
      (∀ l, ds t = Except.ok l → ∀ dex ∈ l, edgeRec g (⟨t⟩ : Node) dex) := by
  unfold ArbitrageGraph.new at h
  cases hb : build_graph ds fuel ⟨[⟨SUI_COIN_TYPE⟩], []⟩ SUI_COIN_TYPE with
  | none => rw [hb] at h; exact absurd h (by simp)
  | some gv =>
      rw [hb] at h
      cases hds : ds SUI_COIN_TYPE with
      | error e => rw [hds] at h; exact absurd h (by simp)
      | ok sui_dexes =>
          rw [hds] at h
          dsimp only at h
          cases hw : wideningFold ds fuel sui_dexes gv.1 with
          | none => rw [hw] at h; exact absurd h (by simp)
          | some gfin =>
              rw [hw] at h
              simp only [Option.some.injEq, Except.ok.injEq] at h
              subst h
              obtain ⟨_, _, _, m4, m5⟩ := build_loop_spec ds fuel []
                [SUI_COIN_TYPE] ⟨[⟨SUI_COIN_TYPE⟩], []⟩ gv.1 gv.2
                (by rw [← hb]; rfl)
              obtain ⟨w1, w2⟩ := wideningFold_mono ds fuel sui_dexes gv.1 gfin hw
              have hvis : ∀ t, ReachSearch ds SUI_COIN_TYPE t → t ∈ gv.2 := by
                intro t hr
                induction hr with
                | refl => exact m4 _ (List.mem_singleton.mpr rfl)
                | step t0 l dex hr0 hds0 hdex ih0 =>
                    rcases m5 t0 ih0 with habs | ⟨_, hproc⟩
                    · exact absurd habs (List.not_mem_nil _)
                    · exact (hproc l hds0 dex hdex).2
              intro t hr
              rcases m5 t (hvis t hr) with habs | ⟨hnode, hproc⟩
              · exact absurd habs (List.not_mem_nil _)
              · refine ⟨w1 _ hnode, ?_⟩
                intro l hl dex hdex
                exact w2 _ dex (hproc l hl dex hdex).1

/-- Witness for C1-amended at a concrete input: with searcher `dsW`
(SUI→Q), the token Q — reachable in one successful hop from SUI — has a
node in the constructed graph `gW`, and the edge for the adapter `dexSQ`
is recorded at the SUI node. -/
theorem c1_amended_witness :
    ((⟨"Q"⟩ : Node) ∈ gW.nodes ∧
      (∀ l, dsW "Q" = Except.ok l → ∀ dex ∈ l, edgeRec gW (⟨"Q"⟩ : Node) dex)) ∧
    ((⟨SUI_COIN_TYPE⟩ : Node) ∈ gW.nodes ∧
      (∀ l, dsW SUI_COIN_TYPE = Except.ok l →
        ∀ dex ∈ l, edgeRec gW (⟨SUI_COIN_TYPE⟩ : Node) dex)) :=
  ⟨c1_amended dsW 10 gW (by rfl) "Q"
      (ReachSearch.step SUI_COIN_TYPE [dexSQ] dexSQ ReachSearch.refl
        (by rfl) (List.mem_singleton.mpr rfl)),
   c1_amended dsW 10 gW (by rfl) SUI_COIN_TYPE ReachSearch.refl⟩

/-- Claim C3, amended: on every terminating run, `find_arbitrage_paths`
returns a hard error if and only if the post-construction widening query
`find_dexes(SUI_COIN_TYPE)` (line 50) fails; every discovery failure
inside `build_graph`'s expansion — including the failure of the root
token's own query — is swallowed (`Err(_) => continue`, lines 81-84), the
failing token contributes zero outgoing edges, and traversal continues. -/
theorem c3_amended (ds : DexSearcher) (fuel : Nat) (start_token : String)
    (pool_id : Option String) (r : Except Unit (List Path))
    (h : find_arbitrage_paths ds fuel start_token pool_id = some r) :
    (∃ e, r = Except.error e) ↔ (∃ e, ds SUI_COIN_TYPE = Except.error e) := by
  unfold find_arbitrage_paths at h
  cases hn : ArbitrageGraph.new ds fuel with
  | none => rw [hn] at h; exact absurd h (by simp)
  | some res =>
      rw [hn] at h
      cases res with
      | error e =>
          dsimp only at h
          simp only [Option.some.injEq] at h
          constructor
          · intro _
            exact ⟨e, new_error ds fuel e hn⟩
          · intro _
            exact ⟨e, h.symm⟩
      | ok graph =>
          dsimp only at h
          simp only [Option.some.injEq] at h
          constructor
          · intro ⟨e, he⟩
            rw [← h] at he
            exact absurd he (by simp)
          · intro ⟨e, he⟩
            obtain ⟨l, hl⟩ := new_ok_sui ds fuel graph hn
            rw [hl] at he
            exact absurd he (by simp)

/-- Witness for C3-amended at a concrete input: `dsFailSui` fails on SUI,
and the terminating run surfaces exactly that hard error. -/
theorem c3_amended_witness :
    (∃ e, (Except.error () : Except Unit (List Path)) = Except.error e) ↔
    (∃ e, dsFailSui SUI_COIN_TYPE = Except.error e) :=
  c3_amended dsFailSui 10 "X" none (Except.error ()) (by rfl)

/-- Claim C8: when `pool_id = Some(q)` every returned Path contains a hop
whose adapter `object_id` is `q`; when no converted cycle contains `q`
the result is empty even if unfiltered cycles exist; and with
`pool_id = None` every converted cycle's Path is retained. -/
theorem c8_pool_filter (ds : DexSearcher) (fuel : Nat) (start_token : String) :
    (∀ (q : String) (paths : List Path),
        find_arbitrage_paths ds fuel start_token (some q) =
          some (Except.ok paths) →
        ∀ p ∈ paths, p.contains_pool (some q) = true) ∧
    (∀ (q : String) (g : ArbitrageGraph),
        ArbitrageGraph.new ds fuel = some (Except.ok g) →
        (∀ c ∈ find_arbitrage_opportunities g start_token,
          (cycle_to_path c).contains_pool (some q) = false) →
        find_arbitrage_paths ds fuel start_token (some q) =
          some (Except.ok [])) ∧
    (∀ (g : ArbitrageGraph),
        ArbitrageGraph.new ds fuel = some (Except.ok g) →
        find_arbitrage_paths ds fuel start_token none =
          some (Except.ok
            ((find_arbitrage_opportunities g start_token).map cycle_to_path))) := by
  refine ⟨?_, ?_, ?_⟩
  · intro q paths hp p hmem
    cases hn : ArbitrageGraph.new ds fuel with
    | none =>
        unfold find_arbitrage_paths at hp
        rw [hn] at hp
        exact absurd hp (by simp)
    | some res =>
        cases res with
        | error e =>
            unfold find_arbitrage_paths at hp
            rw [hn] at hp
            dsimp only at hp
            simp only [Option.some.injEq] at hp
            exact absurd hp (by simp)
        | ok g =>
            rw [find_paths_ok_eq ds fuel start_token (some q) g hn] at hp
            dsimp only at hp
            simp only [Option.some.injEq, Except.ok.injEq] at hp
            rw [← hp] at hmem
            exact (List.mem_filter.mp hmem).2
  · intro q g hn hnone
    rw [find_paths_ok_eq ds fuel start_token (some q) g hn]
    dsimp only
    congr 2
    rw [List.filter_eq_nil_iff]
    intro p hp
    obtain ⟨c, hc, hcp⟩ := List.mem_map.mp hp
    rw [← hcp]
    simp [hnone c hc]
  · intro g hn
    exact find_paths_ok_eq ds fuel start_token none g hn

/-- Witness for C8 at concrete inputs: the searcher `dsC` yields two
(duplicate) two-hop cycle paths; filtering by the contained pool "id1"
keeps paths containing it, and filtering by the absent pool "nope"
yields the empty list. -/
theorem c8_witness :
    (∀ p ∈ [[dexTS, dexST], [dexTS, dexST]],
      Path.contains_pool p (some "id1") = true) ∧
    find_arbitrage_paths dsC 10 SUI_COIN_TYPE (some "nope") =
      some (Except.ok []) :=
  ⟨(c8_pool_filter dsC 10 SUI_COIN_TYPE).1 "id1" [[dexTS, dexST], [dexTS, dexST]]
      (by rfl),
   (c8_pool_filter dsC 10 SUI_COIN_TYPE).2.1 "nope" gC (by rfl) (by decide)⟩

/-- Claim C5: every edge recorded by graph construction carries the same
fixed placeholder weight `-1.0` (line 96), so any two edges of a
constructed graph have equal weights. -/
theorem c5_constant_weight (ds : DexSearcher) (fuel : Nat)
    (g : ArbitrageGraph) (h : ArbitrageGraph.new ds fuel = some (Except.ok g)) :
    (∀ p ∈ g.edges, ∀ e ∈ p.2, e.weight = -1) ∧
    (∀ p₁ ∈ g.edges, ∀ e₁ ∈ p₁.2, ∀ p₂ ∈ g.edges, ∀ e₂ ∈ p₂.2,
      e₁.weight = e₂.weight) := by
  have hinv := new_inv ds fuel g h
  refine ⟨fun p hp e he => (hinv.1 p hp e he).2.2, ?_⟩
  intro p₁ hp₁ e₁ he₁ p₂ hp₂ e₂ he₂
  rw [(hinv.1 p₁ hp₁ e₁ he₁).2.2, (hinv.1 p₂ hp₂ e₂ he₂).2.2]

/-- Witness for C5: the graph constructed by the concrete searcher `dsW`
has its one edge at weight `-1.0`. -/
theorem c5_witness : (⟨⟨SUI_COIN_TYPE⟩, ⟨"Q"⟩, dexSQ, -1⟩ : Edge).weight = -1 :=
  (c5_constant_weight dsW 10 gW (by rfl)).1
    (⟨SUI_COIN_TYPE⟩, [⟨⟨SUI_COIN_TYPE⟩, ⟨"Q"⟩, dexSQ, -1⟩]) (by simp [gW])
    _ (List.mem_singleton.mpr rfl)

/-- Claim C9: after construction, every edge's `from` and `to` nodes are
members of the node set, and the node set (a `HashSet` keyed on
`token_type`, which is all a `Node` is) holds no duplicates. -/
theorem c9_wellformed (ds : DexSearcher) (fuel : Nat) (g : ArbitrageGraph)
    (h : ArbitrageGraph.new ds fuel = some (Except.ok g)) :
    (∀ p ∈ g.edges, ∀ e ∈ p.2, e.from_ ∈ g.nodes ∧ e.to_ ∈ g.nodes) ∧
    g.nodes.Nodup := by
  have hinv := new_inv ds fuel g h
  exact ⟨fun p hp e he => ⟨(hinv.1 p hp e he).1, (hinv.1 p hp e he).2.1⟩, hinv.2⟩

/-- Witness for C9: on the concretely constructed graph `gW`, the edge
endpoints are nodes and the node list is duplicate-free. -/
theorem c9_witness :
    ((⟨SUI_COIN_TYPE⟩ : Node) ∈ gW.nodes ∧ (⟨"Q"⟩ : Node) ∈ gW.nodes) ∧
    gW.nodes.Nodup := by
  have h := c9_wellformed dsW 10 gW (by rfl)
  refine ⟨?_, h.2⟩
  have := h.1 (⟨SUI_COIN_TYPE⟩, [⟨⟨SUI_COIN_TYPE⟩, ⟨"Q"⟩, dexSQ, -1⟩])
    (by simp [gW]) _ (List.mem_singleton.mpr rfl)
  exact this

/-- Claim C2, failing input: on the graph S→X(−1), X→Y(−1), X→X(−1) with
start S, `find_arbitrage_opportunities` returns exactly one "cycle",
namely the two-edge sequence X→X, X→Y — whose first edge's source token
"X" differs from its last edge's destination token "Y", so the returned
cycle does not close.  The claim (and spec §8/§4.2 step 5) says every
returned cycle closes; `extract_cycle` checks closure on the collected
list *before* reversing it (comparing the walk's first-collected `from`
with its last-collected `to`), which a two-edge predecessor walk passes
trivially. -/
theorem c2_code_bug_eval :
    find_arbitrage_opportunities gc2 "S" = [[eXX, eXY]] ∧
    eXX.from_.token_type = "X" ∧ eXY.to_.token_type = "Y" :=
  ⟨by rfl, by rfl, by rfl⟩

/-- Claim C4, failing input: on the spec's own synthetic 3-node graph
A→B (−0.5), B→C (−0.5), C→A (−0.5), detection from A returns no cycle at
all, where the claim demands exactly one cycle of length 3 totalling
−1.5.  The lone still-relaxable edge found by the check pass is A→B, and
the three-edge predecessor walk from B is rejected by `extract_cycle`'s
pre-reversal endpoint comparison (it compares the walk's first `from`
with its last `to`, i.e. two *interior* vertices of the cycle). -/
theorem c4_code_bug_eval : find_arbitrage_opportunities g4 "A" = [] := by
  rfl

/-- Claim C1, counterexample: for the call
`find_arbitrage_paths(start_token = "X", pool_id = None)` against a
searcher that knows the route X→Y, the graph that gets constructed
contains only the SUI node — neither "X" nor "Y", although "Y" is one hop
from the caller-supplied start token.  Construction (`ArbitrageGraph::new`)
is rooted at the hard-coded `SUI_COIN_TYPE`, never at the caller's
`start_token`, so the claim's "graph contains every token and edge
transitively reachable from start_token" is false. -/
theorem c1_counterexample :
    ArbitrageGraph.new dsX 10 =
      some (Except.ok ⟨[⟨SUI_COIN_TYPE⟩], []⟩) ∧
    dsX "X" = Except.ok [dexXY] ∧
    find_arbitrage_paths dsX 10 "X" none = some (Except.ok []) :=
  ⟨by rfl, by rfl, by rfl⟩

/-- Claim C3, counterexample: with a searcher failing exactly on SUI,
`find_arbitrage_paths("X", None)` surfaces a hard error even though the
discovery query for the caller's root start token "X" never fails (it is
never even issued, and `dsFailSui "X"` succeeds).  The hard error comes
from the *widening* query `find_dexes(SUI)` on line 50; the root query
inside `build_graph` is swallowed like any other (`Err(_) => continue`),
and no discovery failure can "prevent a node from being created" because
the node is inserted before its query.  So the claimed iff fails in both
directions. -/
theorem c3_counterexample :
    find_arbitrage_paths dsFailSui 10 "X" none = some (Except.error ()) ∧
    dsFailSui "X" = Except.ok [] :=
  ⟨by rfl, by rfl⟩

/-- Claim C7: if `start_token` is not in the graph's node set,
`find_arbitrage_opportunities` returns the empty list (the function is
total — there is no error path; the Rust function returns a plain `Vec`). -/
theorem c7_start_token_missing (g : ArbitrageGraph) (start_token : String)
    (h : (⟨start_token⟩ : Node) ∉ g.nodes) :
    find_arbitrage_opportunities g start_token = [] := by
  unfold find_arbitrage_opportunities
  simp [h]

/-- Witness for C7 at a concrete input: the node set {A} does not contain
"Z", and detection from "Z" returns `[]`. -/
theorem c7_witness :
    (⟨"Z"⟩ : Node) ∉ g4.nodes ∧ find_arbitrage_opportunities g4 "Z" = [] :=
  ⟨by decide, c7_start_token_missing g4 "Z" (by decide)⟩

/-- Claim C10: the membership guard precedes the relaxation-bound
computation: when the start token is absent (in particular on an empty
node set) detection returns `[]` without reaching the `node_count - 1`
subtraction, and when the guard passes the node set is non-empty, so the
unsigned subtraction `node_count - 1` does not underflow
(`(length - 1) + 1 = length` states exactly that the `usize` subtraction
is taken on a positive count). -/
theorem c10_guard_protects_subtraction (g : ArbitrageGraph) (start_token : String) :
    ((⟨start_token⟩ : Node) ∉ g.nodes →
      find_arbitrage_opportunities g start_token = []) ∧
    ((⟨start_token⟩ : Node) ∈ g.nodes →
      g.nodes.length - 1 + 1 = g.nodes.length) := by
  constructor
  · intro h
    unfold find_arbitrage_opportunities
    simp [h]
  · intro h
    have hpos : 0 < g.nodes.length := List.length_pos.mpr (by
      intro hnil
      rw [hnil] at h
      exact absurd h (List.not_mem_nil _))
    omega

/-- Witness for C10 at concrete inputs: both conjuncts instantiated — the
empty-node-set graph returns `[]` for any start, and on `g4` (3 nodes,
start present) the relaxation bound computes without underflow. -/
theorem c10_witness :
    find_arbitrage_opportunities (⟨[], []⟩ : ArbitrageGraph) "A" = [] ∧
    g4.nodes.length - 1 + 1 = g4.nodes.length :=
  ⟨(c10_guard_protects_subtraction ⟨[], []⟩ "A").1 (by decide),
   (c10_guard_protects_subtraction g4 "A").2 (by decide)⟩

/-! ## Walk theory -/

theorem wsum_nil : wsum [] = 0 := rfl

theorem wsum_cons (v : Node) (w : ℚ) (l : List (Node × ℚ)) :
    wsum ((v, w) :: l) = w + wsum l := by
  simp [wsum]

theorem wsum_append (l₁ l₂ : List (Node × ℚ)) :
    wsum (l₁ ++ l₂) = wsum l₁ + wsum l₂ := by
  simp [wsum]

theorem walk_append (g : ArbitrageGraph) :
    ∀ (l₁ : List (Node × ℚ)) (a b c : Node) (l₂ : List (Node × ℚ)),
    IsWalkFrom g a l₁ b → IsWalkFrom g b l₂ c → IsWalkFrom g a (l₁ ++ l₂) c := by
  intro l₁
  induction l₁ with
  | nil =>
      intro a b c l₂ h1 h2
      cases h1
      exact h2
  | cons hd tl ih =>
      intro a b c l₂ h1 h2
      obtain ⟨v, w⟩ := hd
      obtain ⟨hs, hw⟩ := h1
      exact ⟨hs, ih v b c l₂ hw h2⟩

theorem walk_split (g : ArbitrageGraph) :
    ∀ (l₁ : List (Node × ℚ)) (a c : Node) (l₂ : List (Node × ℚ)),
    IsWalkFrom g a (l₁ ++ l₂) c →
    ∃ b, IsWalkFrom g a l₁ b ∧ IsWalkFrom g b l₂ c := by
  intro l₁
  induction l₁ with
  | nil =>
      intro a c l₂ h
      exact ⟨a, rfl, h⟩
  | cons hd tl ih =>
      intro a c l₂ h
      obtain ⟨v, w⟩ := hd
      obtain ⟨hs, hw⟩ := h
      obtain ⟨b, hb1, hb2⟩ := ih v c l₂ hw
      exact ⟨b, ⟨hs, hb1⟩, hb2⟩

theorem walk_snoc_eq (g : ArbitrageGraph) (a b v : Node) (w : ℚ)
    (l : List (Node × ℚ)) (h : IsWalkFrom g a (l ++ [(v, w)]) b) : b = v := by
  obtain ⟨m, _, hm⟩ := walk_split g l a b [(v, w)] h
  obtain ⟨_, hb⟩ := hm
  exact hb

theorem walk_snoc (g : ArbitrageGraph) (a u v : Node) (w : ℚ)
    (l : List (Node × ℚ)) (hw : IsWalkFrom g a l u) (hs : stepIn g u v w) :
    IsWalkFrom g a (l ++ [(v, w)]) v :=
  walk_append g l a u v [(v, w)] hw ⟨hs, rfl⟩

theorem walk_verts_mem (g : ArbitrageGraph)
    (hwf : ∀ p ∈ g.edges, ∀ e ∈ p.2, e.to_ ∈ g.nodes) :
    ∀ (l : List (Node × ℚ)) (a b : Node), IsWalkFrom g a l b →
    ∀ v ∈ l.map Prod.fst, v ∈ g.nodes := by
  intro l
  induction l with
  | nil => intro a b _ v hv; exact absurd hv (List.not_mem_nil _)
  | cons hd tl ih =>
      intro a b h v hv
      obtain ⟨v₀, w₀⟩ := hd
      obtain ⟨hs, hw⟩ := h
      rcases List.mem_cons.mp hv with h1 | h2
      · subst h1
        obtain ⟨es, hes, e, he, hto, _⟩ := hs
        rw [← hto]
        exact hwf _ hes e he
      · exact ih v₀ b hw v h2

theorem not_nodup_split {α : Type} [DecidableEq α] :
    ∀ (l : List α), ¬ l.Nodup → ∃ p a q r, l = p ++ a :: q ++ a :: r := by
  intro l
  induction l with
  | nil => intro h; exact absurd List.nodup_nil h
  | cons x t ih =>
      intro h
      by_cases hx : x ∈ t
      · obtain ⟨q, r, hqr⟩ := List.append_of_mem hx
        exact ⟨[], x, q, r, by rw [hqr]; simp⟩
      · have ht : ¬ t.Nodup := by
          intro hnd
          exact h (List.nodup_cons.mpr ⟨hx, hnd⟩)
        obtain ⟨p, a, q, r, hpr⟩ := ih ht
        exact ⟨x :: p, a, q, r, by rw [hpr]; rfl⟩

theorem map_split {α β : Type} (f : α → β) :
    ∀ (xs : List β) (y : β) (ys : List β) (l : List α),
    l.map f = xs ++ y :: ys →
    ∃ l₁ b l₂, l = l₁ ++ b :: l₂ ∧ l₁.map f = xs ∧ f b = y ∧ l₂.map f = ys := by
  intro xs
  induction xs with
  | nil =>
      intro y ys l h
      cases l with
      | nil => exact absurd h (by simp)
      | cons b l₂ =>
          simp only [List.map_cons, List.nil_append, List.cons.injEq] at h
          exact ⟨[], b, l₂, rfl, rfl, h.1, h.2⟩
  | cons x xs' ih =>
      intro y ys l h
      cases l with
      | nil => exact absurd h (by simp)
      | cons b₀ l' =>
          simp only [List.map_cons, List.cons_append, List.cons.injEq] at h
          obtain ⟨l₁, b, l₂, hl, hm1, hm2, hm3⟩ := ih y ys l' h.2
          exact ⟨b₀ :: l₁, b, l₂, by rw [hl]; rfl, by simp [h.1, hm1], hm2, hm3⟩

/-- Cycle excision: when every non-empty closed walk at a vertex reachable
from `s` has non-negative weight, every walk from `s` can be shortened to
a walk with pairwise-distinct vertices of no greater weight. -/
theorem walk_simplify (g : ArbitrageGraph) (s : Node)
    (H : ∀ x lc, Reachable g s x → IsWalkFrom g x lc x → lc ≠ [] →
      0 ≤ wsum lc) :
    ∀ (n : Nat) (l : List (Node × ℚ)) (v : Node), l.length ≤ n →
    IsWalkFrom g s l v →
    ∃ l', IsWalkFrom g s l' v ∧ wsum l' ≤ wsum l ∧
      (s :: l'.map Prod.fst).Nodup := by
  intro n
  induction n with
  | zero =>
      intro l v hlen hw
      have hnil : l = [] := List.length_eq_zero.mp (Nat.le_zero.mp hlen)
      subst hnil
      exact ⟨[], hw, le_refl _, by simp⟩
  | succ n ihn =>
      intro l v hlen hw
      by_cases hnd : (s :: l.map Prod.fst).Nodup
      · exact ⟨l, hw, le_refl _, hnd⟩
      · obtain ⟨p, a, q, r, hsplit⟩ := not_nodup_split _ hnd
        cases p with
        | nil =>
            simp only [List.nil_append, List.cons_append] at hsplit
            injection hsplit with h1 h2
            rw [← h1] at h2
            obtain ⟨l₁, b, l₂, hl, hm1, hmb, hm2⟩ :=
              map_split Prod.fst q s r l h2
            obtain ⟨bv, bw⟩ := b
            subst hl
            have hbv : s = bv := Eq.symm hmb
            subst hbv
            have hregroup : l₁ ++ (s, bw) :: l₂ = (l₁ ++ [(s, bw)]) ++ l₂ := by
              simp
            rw [hregroup] at hw
            obtain ⟨m, hwA, hwC⟩ := walk_split g (l₁ ++ [(s, bw)]) s v l₂ hw
            have hm : s = m := Eq.symm (walk_snoc_eq g s m s bw l₁ hwA)
            subst hm
            have hge : 0 ≤ wsum (l₁ ++ [(s, bw)]) :=
              H s _ ⟨[], rfl⟩ hwA (by simp)
            have hlen2 : l₂.length ≤ n := by
              rw [hregroup] at hlen
              simp only [List.length_append, List.length_cons,
                List.length_singleton] at hlen ⊢
              omega
            obtain ⟨l', hw', hsum', hnd'⟩ := ihn l₂ v hlen2 hwC
            refine ⟨l', hw', ?_, hnd'⟩
            rw [wsum_append, wsum_cons]
            rw [wsum_append, wsum_cons, wsum_nil] at hge
            linarith
        | cons x p' =>
            simp only [List.cons_append] at hsplit
            injection hsplit with h1 h2
            rw [List.append_assoc, List.cons_append] at h2
            obtain ⟨l₁, b₁, rest, hl, hp1, hb1, hrest⟩ :=
              map_split Prod.fst p' a (q ++ a :: r) l h2
            obtain ⟨l₂, b₂, l₃, hl2, hq2, hb2, hr3⟩ :=
              map_split Prod.fst q a r rest hrest
            obtain ⟨b1v, b1w⟩ := b₁
            obtain ⟨b2v, b2w⟩ := b₂
            subst hl2
            subst hl
            have hb1v : a = b1v := Eq.symm hb1
            have hb2v : a = b2v := Eq.symm hb2
            subst hb1v; subst hb2v
            have hregroup :
                l₁ ++ (a, b1w) :: (l₂ ++ (a, b2w) :: l₃) =
                (l₁ ++ [(a, b1w)]) ++ ((l₂ ++ [(a, b2w)]) ++ l₃) := by
              simp
            rw [hregroup] at hw
            obtain ⟨m₁, hwA, hwBC⟩ :=
              walk_split g (l₁ ++ [(a, b1w)]) s v _ hw
            have hm₁ : a = m₁ := Eq.symm (walk_snoc_eq g s m₁ a b1w l₁ hwA)
            subst hm₁
            obtain ⟨m₂, hwB, hwC⟩ := walk_split g (l₂ ++ [(a, b2w)]) a v l₃ hwBC
            have hm₂ : a = m₂ := Eq.symm (walk_snoc_eq g a m₂ a b2w l₂ hwB)
            subst hm₂
            have hge : 0 ≤ wsum (l₂ ++ [(a, b2w)]) :=
              H a _ ⟨l₁ ++ [(a, b1w)], hwA⟩ hwB (by simp)
            have hwNew : IsWalkFrom g s ((l₁ ++ [(a, b1w)]) ++ l₃) v :=
              walk_append g (l₁ ++ [(a, b1w)]) s a v l₃ hwA hwC
            have hlen2 : ((l₁ ++ [(a, b1w)]) ++ l₃).length ≤ n := by
              rw [hregroup] at hlen
              simp only [List.length_append, List.length_cons,
                List.length_singleton] at hlen ⊢
              omega
            obtain ⟨l', hw', hsum', hnd'⟩ := ihn _ v hlen2 hwNew
            refine ⟨l', hw', ?_, hnd'⟩
            simp only [wsum_append, wsum_cons, wsum_nil] at hsum' hge ⊢
            linarith

/-- A vertex-distinct walk from a graph node visits at most
`|nodes| - 1` edges. -/
theorem walk_len_bound (g : ArbitrageGraph) (s : Node) (hs : s ∈ g.nodes)
    (hwf : ∀ p ∈ g.edges, ∀ e ∈ p.2, e.to_ ∈ g.nodes)
    (l : List (Node × ℚ)) (v : Node) (hw : IsWalkFrom g s l v)
    (hnd : (s :: l.map Prod.fst).Nodup) :
    l.length ≤ g.nodes.length - 1 := by
  have hsub : (s :: l.map Prod.fst) ⊆ g.nodes := by
    intro x hx
    rcases List.mem_cons.mp hx with h1 | h2
    · subst h1; exact hs
    · exact walk_verts_mem g hwf l s v hw x h2
  have hlen := (List.Nodup.subperm hnd hsub).length_le
  simp only [List.length_cons, List.length_map] at hlen
  omega

/-- Any negative non-empty closed walk contains (after a connecting
prefix) a negative simple cycle. -/
theorem neg_closed_walk_simple (g : ArbitrageGraph) :
    ∀ (n : Nat) (x : Node) (l : List (Node × ℚ)), l.length ≤ n →
    IsWalkFrom g x l x → l ≠ [] → wsum l < 0 →
    ∃ b lp lc, IsWalkFrom g x lp b ∧ IsWalkFrom g b lc b ∧ lc ≠ [] ∧
      wsum lc < 0 ∧ (b :: (lc.map Prod.fst).dropLast).Nodup := by
  intro n
  induction n with
  | zero =>
      intro x l hlen hw hne hneg
      exact absurd (List.length_eq_zero.mp (Nat.le_zero.mp hlen)) hne
  | succ n ihn =>
      intro x l hlen hw hne hneg
      by_cases hnd : (x :: (l.map Prod.fst).dropLast).Nodup
      · exact ⟨x, [], l, rfl, hw, hne, hneg, hnd⟩
      · rcases List.eq_nil_or_concat' l with hl0 | ⟨l₀, lastE, hl0⟩
        · exact absurd hl0 hne
        · obtain ⟨lv, lw⟩ := lastE
          subst hl0
          have hlv : x = lv := walk_snoc_eq g x x lv lw l₀ hw
          have hdrop : ((l₀ ++ [(lv, lw)]).map Prod.fst).dropLast =
              l₀.map Prod.fst := by
            rw [List.map_append]
            exact List.dropLast_concat
          rw [hdrop] at hnd
          obtain ⟨p, a, q, r, hsplit⟩ := not_nodup_split _ hnd
          cases p with
          | nil =>
              simp only [List.nil_append, List.cons_append] at hsplit
              injection hsplit with h1 h2
              rw [← h1] at h2
              obtain ⟨l₁, b₁, l₂, hl, hm1, hmb, hm2⟩ :=
                map_split Prod.fst q x r l₀ h2
              obtain ⟨b1v, b1w⟩ := b₁
              subst hl
              have hb1v : x = b1v := Eq.symm hmb
              subst hb1v
              have hregroup : (l₁ ++ (x, b1w) :: l₂) ++ [(lv, lw)] =
                  (l₁ ++ [(x, b1w)]) ++ (l₂ ++ [(lv, lw)]) := by simp
              rw [hregroup] at hw
              obtain ⟨m, hwA, hwB⟩ :=
                walk_split g (l₁ ++ [(x, b1w)]) x x (l₂ ++ [(lv, lw)]) hw
              have hm : x = m :=
                Eq.symm (walk_snoc_eq g x m x b1w l₁ hwA)
              subst hm
              have hsum : wsum (l₁ ++ [(x, b1w)]) +
                  wsum (l₂ ++ [(lv, lw)]) < 0 := by
                rw [hregroup] at hneg
                rw [wsum_append] at hneg
                exact hneg
              by_cases hwa : wsum (l₁ ++ [(x, b1w)]) < 0
              · have hlenA : (l₁ ++ [(x, b1w)]).length ≤ n := by
                  rw [hregroup] at hlen
                  simp only [List.length_append, List.length_cons,
                    List.length_singleton, List.length_nil] at hlen ⊢
                  omega
                exact ihn x (l₁ ++ [(x, b1w)]) hlenA hwA (by simp) hwa
              · have hwb : wsum (l₂ ++ [(lv, lw)]) < 0 := by
                  push_neg at hwa
                  linarith
                have hlenB : (l₂ ++ [(lv, lw)]).length ≤ n := by
                  rw [hregroup] at hlen
                  simp only [List.length_append, List.length_cons,
                    List.length_singleton, List.length_nil] at hlen ⊢
                  omega
                exact ihn x (l₂ ++ [(lv, lw)]) hlenB hwB (by simp) hwb
          | cons x₀ p' =>
              simp only [List.cons_append] at hsplit
              injection hsplit with h1 h2
              rw [List.append_assoc, List.cons_append] at h2
              obtain ⟨l₁, b₁, rest, hl, hp1, hb1, hrest⟩ :=
                map_split Prod.fst p' a (q ++ a :: r) l₀ h2
              obtain ⟨l₂, b₂, l₃, hl2, hq2, hb2, hr3⟩ :=
                map_split Prod.fst q a r rest hrest
              obtain ⟨b1v, b1w⟩ := b₁
              obtain ⟨b2v, b2w⟩ := b₂
              subst hl2
              subst hl
              have hb1v : a = b1v := Eq.symm hb1
              have hb2v : a = b2v := Eq.symm hb2
              subst hb1v; subst hb2v
              have hregroup :
                  (l₁ ++ (a, b1w) :: (l₂ ++ (a, b2w) :: l₃)) ++ [(lv, lw)] =
                  (l₁ ++ [(a, b1w)]) ++
                    ((l₂ ++ [(a, b2w)]) ++ (l₃ ++ [(lv, lw)])) := by simp
              rw [hregroup] at hw
              obtain ⟨m₁, hwA, hwBC⟩ :=
                walk_split g (l₁ ++ [(a, b1w)]) x x _ hw
              have hm₁ : a = m₁ :=
                Eq.symm (walk_snoc_eq g x m₁ a b1w l₁ hwA)
              subst hm₁
              obtain ⟨m₂, hwB, hwC⟩ :=
                walk_split g (l₂ ++ [(a, b2w)]) a x (l₃ ++ [(lv, lw)]) hwBC
              have hm₂ : a = m₂ :=
                Eq.symm (walk_snoc_eq g a m₂ a b2w l₂ hwB)
              subst hm₂
              have hsum : wsum (l₁ ++ [(a, b1w)]) +
                  (wsum (l₂ ++ [(a, b2w)]) + wsum (l₃ ++ [(lv, lw)])) < 0 := by
                rw [hregroup] at hneg
                simp only [wsum_append] at hneg ⊢
                linarith
              by_cases hwb : wsum (l₂ ++ [(a, b2w)]) < 0
              · have hlenB : (l₂ ++ [(a, b2w)]).length ≤ n := by
                  rw [hregroup] at hlen
                  simp only [List.length_append, List.length_cons,
                    List.length_singleton, List.length_nil] at hlen ⊢
                  omega
                obtain ⟨b, lp, lc, hwp, hwc, hne', hneg', hnd'⟩ :=
                  ihn a (l₂ ++ [(a, b2w)]) hlenB hwB (by simp) hwb
                exact ⟨b, (l₁ ++ [(a, b1w)]) ++ lp,
                  lc, walk_append g (l₁ ++ [(a, b1w)]) x a b lp hwA hwp,
                  hwc, hne', hneg', hnd'⟩
              · have hwac : wsum ((l₁ ++ [(a, b1w)]) ++ (l₃ ++ [(lv, lw)])) < 0 := by
                  push_neg at hwb
                  rw [wsum_append]
                  linarith
                have hwAC : IsWalkFrom g x
                    ((l₁ ++ [(a, b1w)]) ++ (l₃ ++ [(lv, lw)])) x :=
                  walk_append g (l₁ ++ [(a, b1w)]) x a x (l₃ ++ [(lv, lw)]) hwA hwC
                have hlenAC : ((l₁ ++ [(a, b1w)]) ++ (l₃ ++ [(lv, lw)])).length ≤ n := by
                  rw [hregroup] at hlen
                  simp only [List.length_append, List.length_cons,
                    List.length_singleton, List.length_nil] at hlen ⊢
                  omega
                exact ihn x _ hlenAC hwAC (by simp) hwac

/-- Under the no-reachable-negative-simple-cycle hypothesis, every
non-empty closed walk at a reachable vertex has non-negative weight. -/
theorem closed_nonneg_of_simple (g : ArbitrageGraph) (s : Node)
    (H : ∀ b lc, Reachable g s b → SimpleCycleAt g b lc → 0 ≤ wsum lc) :
    ∀ x lc, Reachable g s x → IsWalkFrom g x lc x → lc ≠ [] → 0 ≤ wsum lc := by
  intro x lc hreach hw hne
  by_contra hneg
  push_neg at hneg
  obtain ⟨b, lp, lc', hwp, hwc, hne', hneg', hnd⟩ :=
    neg_closed_walk_simple g lc.length x lc (le_refl _) hw hne hneg
  obtain ⟨lx, hlx⟩ := hreach
  exact absurd (H b lc' ⟨lx ++ lp, walk_append g lx s x b lp hlx hwp⟩
    ⟨hwc, hne', hnd⟩) (not_le.mpr hneg')

/-! ## Relaxation invariants -/

theorem leD_refl (o : Option ℚ) : leD o o := by
  cases o with
  | none => trivial
  | some a => exact le_refl a

theorem leD_trans {a b c : Option ℚ} (h1 : leD a b) (h2 : leD b c) :
    leD a c := by
  cases a with
  | none =>
      cases b with
      | none => cases c with | none => trivial | some z => exact False.elim h2
      | some y => exact False.elim h1
  | some x =>
      cases c with
      | none => trivial
      | some z =>
          cases b with
          | none => exact absurd h2 (by simp [leD])
          | some y => exact le_trans h1 h2

theorem leD_of_ltInf {x : ℚ} {o : Option ℚ} (h : ltInf x o = true) :
    leD (some x) o := by
  cases o with
  | none => trivial
  | some y =>
      simp only [ltInf, decide_eq_true_eq] at h
      exact le_of_lt h

theorem ltInf_false_iff (x : ℚ) (o : Option ℚ) :
    ltInf x o = false ↔ leD o (some x) := by
  cases o with
  | none => simp [ltInf, leD]
  | some y =>
      simp only [ltInf, decide_eq_false_iff_not, not_lt]
      exact Iff.rfl

theorem relaxEntry_mono (node : Node) (nd : ℚ) :
    ∀ (es : List Edge) (d : Dist) (p : Pred) (u : Bool) (v : Node),
    leD ((relaxEntry node nd es d p u).1 v) (d v) := by
  intro es
  induction es with
  | nil => intro d p u v; exact leD_refl _
  | cons e es ih =>
      intro d p u v
      simp only [relaxEntry]
      split
      · next hcond =>
          refine leD_trans (ih _ _ _ v) ?_
          unfold updMap
          by_cases hv : v = e.to_
          · rw [if_pos hv, hv]
            exact leD_of_ltInf hcond
          · rw [if_neg hv]
            exact leD_refl _
      · exact ih d p u v

theorem relaxEntry_flag (node : Node) (nd : ℚ) :
    ∀ (es : List Edge) (d : Dist) (p : Pred),
    (relaxEntry node nd es d p true).2.2 = true := by
  intro es
  induction es with
  | nil => intro d p; rfl
  | cons e es ih =>
      intro d p
      simp only [relaxEntry]
      split
      · exact ih _ _
      · exact ih d p

theorem relaxEntry_false (node : Node) (nd : ℚ) :
    ∀ (es : List Edge) (d : Dist) (p : Pred) (u : Bool),
    (relaxEntry node nd es d p u).2.2 = false →
    (relaxEntry node nd es d p u).1 = d ∧
    (relaxEntry node nd es d p u).2.1 = p ∧ u = false ∧
    ∀ e ∈ es, ltInf (qadd nd e.weight) (d e.to_) = false := by
  intro es
  induction es with
  | nil =>
      intro d p u h
      exact ⟨rfl, rfl, h, fun e he => absurd he (List.not_mem_nil _)⟩
  | cons e es ih =>
      intro d p u h
      simp only [relaxEntry] at h ⊢
      split at h
      · rw [relaxEntry_flag node nd es _ _] at h
        exact Bool.noConfusion h
      · next hcond =>
          obtain ⟨h1, h2, h3, h4⟩ := ih d p u h
          rw [if_neg hcond]
          refine ⟨h1, h2, h3, ?_⟩
          intro e' he'
          rcases List.mem_cons.mp he' with hh | ht
          · subst hh
            exact Bool.not_eq_true _ ▸ hcond
          · exact h4 e' ht

theorem relaxEntry_improves (node : Node) (nd : ℚ) :
    ∀ (es : List Edge) (d : Dist) (p : Pred) (u : Bool) (e : Edge), e ∈ es →
    leD ((relaxEntry node nd es d p u).1 e.to_) (some (qadd nd e.weight)) := by
  intro es
  induction es with
  | nil => intro d p u e he; exact absurd he (List.not_mem_nil _)
  | cons e0 es ih =>
      intro d p u e he
      rcases List.mem_cons.mp he with hh | ht
      · subst hh
        simp only [relaxEntry]
        split
        · refine leD_trans (relaxEntry_mono node nd es _ _ _ e.to_) ?_
          unfold updMap
          rw [if_pos rfl]
          exact leD_refl _
        · next hcond =>
            refine leD_trans (relaxEntry_mono node nd es d p u e.to_) ?_
            exact (ltInf_false_iff _ _).mp (Bool.not_eq_true _ ▸ hcond)
      · simp only [relaxEntry]
        split
        · exact ih _ _ _ e ht
        · exact ih d p u e ht

theorem relaxEntry_sound (g : ArbitrageGraph) (s node : Node) (nd : ℚ)
    (hnode : ∃ ln, IsWalkFrom g s ln node ∧ wsum ln = nd) :
    ∀ (es : List Edge) (d : Dist) (p : Pred) (u : Bool),
    (∀ e ∈ es, stepIn g node e.to_ e.weight) → Sound g s d →
    Sound g s (relaxEntry node nd es d p u).1 := by
  intro es
  induction es with
  | nil => intro d p u _ hsound; exact hsound
  | cons e es ih =>
      intro d p u hsteps hsound
      simp only [relaxEntry]
      split
      · refine ih _ _ _ (fun e' he' => hsteps e' (List.mem_cons_of_mem _ he')) ?_
        intro v c hv
        unfold updMap at hv
        by_cases hveq : v = e.to_
        · rw [if_pos hveq] at hv
          injection hv with hv
          obtain ⟨ln, hln, hsum⟩ := hnode
          refine ⟨ln ++ [(e.to_, e.weight)],
            hveq ▸ walk_snoc g s node e.to_ e.weight ln hln
              (hsteps e (List.mem_cons_self _ _)), ?_⟩
          rw [wsum_append, wsum_cons, wsum_nil, hsum, ← hv, qadd_eq_add]
          ring
        · rw [if_neg hveq] at hv
          exact hsound v c hv
      · exact ih d p u (fun e' he' => hsteps e' (List.mem_cons_of_mem _ he'))
          hsound

theorem relaxPass_mono :
    ∀ (entries : List (Node × List Edge)) (d : Dist) (p : Pred) (u : Bool)
      (v : Node),
    leD ((relaxPass entries d p u).1 v) (d v) := by
  intro entries
  induction entries with
  | nil => intro d p u v; exact leD_refl _
  | cons pr rest ih =>
      intro d p u v
      obtain ⟨node, es⟩ := pr
      simp only [relaxPass]
      split
      · exact ih d p u v
      · exact leD_trans (ih _ _ _ v) (relaxEntry_mono node _ es d p u v)

theorem relaxPass_flag :
    ∀ (entries : List (Node × List Edge)) (d : Dist) (p : Pred),
    (relaxPass entries d p true).2.2 = true := by
  intro entries
  induction entries with
  | nil => intro d p; rfl
  | cons pr rest ih =>
      intro d p
      obtain ⟨node, es⟩ := pr
      simp only [relaxPass]
      split
      · exact ih d p
      · next nd heq =>
          have hf := relaxEntry_flag node nd es d p
          cases hrel : relaxEntry node nd es d p true with
          | mk d' pu =>
              rw [hrel] at hf
              obtain ⟨p', u'⟩ := pu
              simp only at hf
              subst hf
              exact ih d' p'

theorem relaxPass_false :
    ∀ (entries : List (Node × List Edge)) (d : Dist) (p : Pred) (u : Bool),
    (relaxPass entries d p u).2.2 = false →
    (relaxPass entries d p u).1 = d ∧ (relaxPass entries d p u).2.1 = p ∧
    u = false ∧ NoViol entries d := by
  intro entries
  induction entries with
  | nil =>
      intro d p u h
      exact ⟨rfl, rfl, h, fun pr hpr => absurd hpr (List.not_mem_nil _)⟩
  | cons pr rest ih =>
      intro d p u h
      obtain ⟨node, es⟩ := pr
      simp only [relaxPass] at h ⊢
      split at h
      · next heq =>
          obtain ⟨h1, h2, h3, h4⟩ := ih d p u h
          refine ⟨h1, h2, h3, ?_⟩
          intro pr' hpr' nd hnd e he
          rcases List.mem_cons.mp hpr' with hh | ht
          · subst hh
            simp only at hnd
            rw [heq] at hnd
            exact Option.noConfusion hnd
          · exact h4 pr' ht nd hnd e he
      · next nd heq =>
          obtain ⟨h1, h2, h3, h4⟩ := ih _ _ _ h
          have hrf : (relaxEntry node nd es d p u).2.2 = false := h3
          obtain ⟨g1, g2, g3, g4⟩ := relaxEntry_false node nd es d p u hrf
          have h4' : NoViol rest d := by rw [← g1]; exact h4
          refine ⟨h1.trans g1, h2.trans g2, g3, ?_⟩
          intro pr' hpr' nd' hnd' e he
          rcases List.mem_cons.mp hpr' with hh | ht
          · subst hh
            simp only at hnd'
            rw [heq] at hnd'
            injection hnd' with hnd'
            subst hnd'
            exact g4 e he
          · exact h4' pr' ht nd' hnd' e he

theorem relaxPass_improves :
    ∀ (entries : List (Node × List Edge)) (d : Dist) (p : Pred) (u : Bool)
      (pr : Node × List Edge), pr ∈ entries → ∀ e ∈ pr.2, ∀ c : ℚ,
    leD (d pr.1) (some c) →
    leD ((relaxPass entries d p u).1 e.to_) (some (c + e.weight)) := by
  intro entries
  induction entries with
  | nil => intro d p u pr hpr; exact absurd hpr (List.not_mem_nil _)
  | cons pr0 rest ih =>
      intro d p u pr hpr e he c hc
      obtain ⟨node, es⟩ := pr0
      rcases List.mem_cons.mp hpr with hh | ht
      · subst hh
        simp only [relaxPass]
        split
        · next heq =>
            rw [heq] at hc
            exact absurd hc (by simp [leD])
        · next nd heq =>
            rw [heq] at hc
            have hnd : nd ≤ c := hc
            refine leD_trans (relaxPass_mono rest _ _ _ e.to_) ?_
            refine leD_trans (relaxEntry_improves node nd es d p u e he) ?_
            show qadd nd e.weight ≤ c + e.weight
            rw [qadd_eq_add]
            linarith
      · simp only [relaxPass]
        split
        · exact ih d p u pr ht e he c hc
        · next nd heq =>
            refine ih _ _ _ pr ht e he c ?_
            exact leD_trans (relaxEntry_mono node nd es d p u pr.1) hc

theorem relaxPass_sound (g : ArbitrageGraph) (s : Node) :
    ∀ (entries : List (Node × List Edge)),
    (∀ pr ∈ entries, pr ∈ g.edges) →
    ∀ (d : Dist) (p : Pred) (u : Bool), Sound g s d →
    Sound g s (relaxPass entries d p u).1 := by
  intro entries
  induction entries with
  | nil => intro _ d p u hs; exact hs
  | cons pr0 rest ih =>
      intro hsub d p u hs
      obtain ⟨node, es⟩ := pr0
      simp only [relaxPass]
      split
      · exact ih (fun pr hpr => hsub pr (List.mem_cons_of_mem _ hpr)) d p u hs
      · next nd heq =>
          refine ih (fun pr hpr => hsub pr (List.mem_cons_of_mem _ hpr)) _ _ _ ?_
          refine relaxEntry_sound g s node nd (hs node nd heq) es d p u ?_ hs
          intro e he
          exact ⟨es, hsub (node, es) (List.mem_cons_self _ _), e, he, rfl, rfl⟩

theorem UB_step (g : ArbitrageGraph) (s : Node) (d : Dist) (p : Pred)
    (u : Bool) (j : Nat) (hub : UB g s d j) :
    UB g s (relaxPass g.edges d p u).1 (j + 1) := by
  intro l v hw hlen
  rcases List.eq_nil_or_concat' l with rfl | ⟨l₀, lastE, rfl⟩
  · have hv : v = s := hw
    subst hv
    refine leD_trans (relaxPass_mono g.edges d p u v) ?_
    exact hub [] v rfl (Nat.zero_le _)
  · obtain ⟨vl, w⟩ := lastE
    obtain ⟨m, hwA, hwStep⟩ := walk_split g l₀ s v [(vl, w)] hw
    obtain ⟨hstep, hveq⟩ := hwStep
    obtain ⟨es, hes, e, he, hto, hwt⟩ := hstep
    have hlen0 : l₀.length ≤ j := by
      simp only [List.length_append, List.length_cons, List.length_nil] at hlen
      omega
    have hdm := hub l₀ m hwA hlen0
    have himp := relaxPass_improves g.edges d p u (m, es) hes e he
      (wsum l₀) hdm
    rw [hto, hwt] at himp
    rw [hveq, wsum_append, wsum_cons, wsum_nil]
    have heq : wsum l₀ + (w + 0) = wsum l₀ + w := by ring
    rw [heq]
    exact himp

theorem relaxLoop_spec (g : ArbitrageGraph) (s : Node) :
    ∀ (k : Nat) (d : Dist) (p : Pred) (j : Nat),
    Sound g s d → UB g s d j →
    Sound g s (relaxLoop g.edges k (d, p)).1 ∧
    (NoViol g.edges (relaxLoop g.edges k (d, p)).1 ∨
     UB g s (relaxLoop g.edges k (d, p)).1 (j + k)) := by
  intro k
  induction k with
  | zero =>
      intro d p j hs hub
      exact ⟨hs, Or.inr hub⟩
  | succ k ih =>
      intro d p j hs hub
      simp only [relaxLoop]
      cases hflag : (relaxPass g.edges d p false).2.2 with
      | false =>
          rw [if_neg Bool.false_ne_true]
          obtain ⟨h1, _, _, h4⟩ := relaxPass_false g.edges d p false hflag
          rw [h1]
          exact ⟨hs, Or.inl h4⟩
      | true =>
          rw [if_pos rfl]
          have hsound1 : Sound g s (relaxPass g.edges d p false).1 :=
            relaxPass_sound g s g.edges (fun pr hpr => hpr) d p false hs
          have hub1 : UB g s (relaxPass g.edges d p false).1 (j + 1) :=
            UB_step g s d p false j hub
          obtain ⟨r1, r2⟩ := ih (relaxPass g.edges d p false).1
            (relaxPass g.edges d p false).2.1 (j + 1) hsound1 hub1
          refine ⟨r1, ?_⟩
          rcases r2 with hnv | hub2
          · exact Or.inl hnv
          · refine Or.inr ?_
            have hje : j + 1 + k = j + (k + 1) := by omega
            rw [hje] at hub2
            exact hub2

theorem checkEntry_nil (g : ArbitrageGraph) (nd : ℚ) (d : Dist) (p : Pred) :
    ∀ (es : List Edge),
    (∀ e ∈ es, ltInf (qadd nd e.weight) (d e.to_) = false) →
    checkEntry g nd d p es = [] := by
  intro es
  induction es with
  | nil => intro _; rfl
  | cons e es ih =>
      intro h
      simp only [checkEntry]
      rw [h e (List.mem_cons_self _ _)]
      simp only [Bool.false_eq_true, if_false]
      exact ih (fun e' he' => h e' (List.mem_cons_of_mem _ he'))

theorem checkPass_nil (g : ArbitrageGraph) (d : Dist) (p : Pred) :
    ∀ (entries : List (Node × List Edge)), NoViol entries d →
    checkPass g d p entries = [] := by
  intro entries
  induction entries with
  | nil => intro _; rfl
  | cons pr rest ih =>
      intro h
      obtain ⟨node, es⟩ := pr
      simp only [checkPass]
      split
      · exact ih (fun pr' hpr' => h pr' (List.mem_cons_of_mem _ hpr'))
      · next nd heq =>
          rw [checkEntry_nil g nd d p es
            (h (node, es) (List.mem_cons_self _ _) nd heq)]
          rw [List.nil_append]
          exact ih (fun pr' hpr' => h pr' (List.mem_cons_of_mem _ hpr'))

/-- Claim C6: when the graph has no negative-weight cycle reachable from
`start_token` (no reachable simple cycle of negative total weight),
`find_arbitrage_opportunities` returns the empty list.  When the start
node is absent this is the guard's doing; otherwise, after the
`|V| - 1` relaxation rounds (early-stopped or not) no edge remains
relaxable, so the check pass collects nothing.  `hwf` is the
construction invariant (claim C9) that edge targets are graph nodes. -/
theorem c6_no_negative_cycle (g : ArbitrageGraph) (start_token : String)
    (hwf : ∀ p ∈ g.edges, ∀ e ∈ p.2, e.to_ ∈ g.nodes)
    (hnc : ∀ b lc, Reachable g (⟨start_token⟩ : Node) b →
      SimpleCycleAt g b lc → 0 ≤ wsum lc) :
    find_arbitrage_opportunities g start_token = [] := by
  unfold find_arbitrage_opportunities
  by_cases hmem : (⟨start_token⟩ : Node) ∈ g.nodes
  · simp only [if_pos hmem]
    have H := closed_nonneg_of_simple g ⟨start_token⟩ hnc
    have hs0 : Sound g ⟨start_token⟩ (dist0 g ⟨start_token⟩) := by
      intro v c hv
      unfold dist0 at hv
      by_cases h1 : v ∈ g.nodes
      · rw [if_pos h1] at hv
        by_cases h2 : v = (⟨start_token⟩ : Node)
        · rw [if_pos h2] at hv
          injection hv with hv
          exact ⟨[], h2, by rw [← hv]; rfl⟩
        · rw [if_neg h2] at hv
          exact Option.noConfusion hv
      · rw [if_neg h1] at hv
        exact Option.noConfusion hv
    have hub0 : UB g ⟨start_token⟩ (dist0 g ⟨start_token⟩) 0 := by
      intro l v hw hlen
      have hl : l = [] := List.length_eq_zero.mp (Nat.le_zero.mp hlen)
      subst hl
      have hv : v = (⟨start_token⟩ : Node) := hw
      subst hv
      unfold dist0
      rw [if_pos hmem, if_pos rfl]
      exact le_refl (0 : ℚ)
    obtain ⟨hsoundF, hcases⟩ := relaxLoop_spec g ⟨start_token⟩
      (g.nodes.length - 1) (dist0 g ⟨start_token⟩) (fun _ => none) 0 hs0 hub0
    rcases hcases with hnv | hub
    · exact checkPass_nil g _ _ g.edges hnv
    · apply checkPass_nil
      intro pr hpr nd hnd e he
      by_contra hbool
      have hbool' : ltInf (qadd nd e.weight)
          ((relaxLoop g.edges (g.nodes.length - 1)
            (dist0 g ⟨start_token⟩, fun _ => none)).1 e.to_) = true := by
        cases hb : ltInf (qadd nd e.weight)
            ((relaxLoop g.edges (g.nodes.length - 1)
              (dist0 g ⟨start_token⟩, fun _ => none)).1 e.to_) with
        | false => exact absurd hb hbool
        | true => rfl
      obtain ⟨lu, hlu, hlusum⟩ := hsoundF pr.1 nd hnd
      have hstep : stepIn g pr.1 e.to_ e.weight := by
        refine ⟨pr.2, ?_, e, he, rfl, rfl⟩
        rw [Prod.mk.eta]
        exact hpr
      have hwalkv := walk_snoc g ⟨start_token⟩ pr.1 e.to_ e.weight lu hlu hstep
      obtain ⟨l', hw', hsum', hnd'⟩ := walk_simplify g ⟨start_token⟩ H
        (lu ++ [(e.to_, e.weight)]).length _ e.to_ (le_refl _) hwalkv
      have hlen' : l'.length ≤ g.nodes.length - 1 :=
        walk_len_bound g ⟨start_token⟩ hmem hwf l' e.to_ hw' hnd'
      have hubv := hub l' e.to_ hw' (by omega)
      cases hd : (relaxLoop g.edges (g.nodes.length - 1)
          (dist0 g ⟨start_token⟩, fun _ => none)).1 e.to_ with
      | none =>
          rw [hd] at hubv
          exact False.elim hubv
      | some y =>
          rw [hd] at hubv hbool'
          simp only [ltInf, decide_eq_true_eq] at hbool'
          have hle : y ≤ wsum l' := hubv
          have hws : wsum (lu ++ [(e.to_, e.weight)]) = nd + e.weight := by
            rw [wsum_append, wsum_cons, wsum_nil, hlusum]
            ring
          rw [qadd_eq_add] at hbool'
          rw [hws] at hsum'
          linarith
  · simp only [if_neg hmem]

/-- Witness for C6 at a concrete input: the single-node, edge-free graph
trivially satisfies both hypotheses and yields no cycles. -/
theorem c6_witness :
    find_arbitrage_opportunities (⟨[⟨"A"⟩], []⟩ : ArbitrageGraph) "A" = [] := by
  refine c6_no_negative_cycle ⟨[⟨"A"⟩], []⟩ "A" ?_ ?_
  · intro p hp
    exact absurd hp (List.not_mem_nil _)
  · intro b lc hreach hcyc
    obtain ⟨hw, hne, _⟩ := hcyc
    cases lc with
    | nil => exact absurd rfl hne
    | cons hd tl =>
        obtain ⟨v, w⟩ := hd
        obtain ⟨hs, _⟩ := hw
        obtain ⟨es, hes, _⟩ := hs
        exact absurd hes (List.not_mem_nil _)

end Arb
